import Mathlib

/-!
Verification of the `ntree` library (an n-ary spatial index, `src/lib.rs`).

The Rust code is generic over a `Region` trait object; here the trait is a
record of boolean-valued operations (`RegionOps`).  The recursive node type
`NTree` flattens the Rust `struct NTree { region, kind }` together with the
two-variant `enum NTreeVariant` (`Bucket` / `Branch`) into one inductive with
a constructor per variant, each carrying its `region`.

`NTree::insert` is not terminating in general (split-and-insert can recurse
without bound, see the divergence development below), so insertion is embedded
with an explicit fuel argument; `IRes.fuelOut` marks fuel exhaustion and
`IRes.panic` marks the `unwrap()` / `unreachable!()` failure branches of the
source.  `remove` and `nearby` are structurally recursive and are embedded
without fuel; `RRes.panic` marks `remove`'s `unwrap()` branch.
-/

set_option maxHeartbeats 1600000
set_option maxRecDepth 8000

/-- The `Region` trait of the source: containment of points, splitting into
sub-regions, and overlap of regions. -/
structure RegionOps (R P : Type) where
  contains : R → P → Bool
  split : R → List R
  overlaps : R → R → Bool

/-- `NTree<R, P>` together with `NTreeVariant<R, P>`: a node is either a
`Bucket` (region, stored points, `bucket_limit : u8`) or a `Branch`
(region, list of subtrees).  The `u8` bucket limit is a `Nat`; the source's
`points.len() as u8` cast is modelled by `% 256` at its use site. -/
inductive NTree (R P : Type) : Type where
  | bucket (region : R) (points : List P) (bucket_limit : Nat)
  | branch (region : R) (subregions : List (NTree R P))

/-- The `region` field common to both variants. -/
def NTree.region : NTree R P → R
  | .bucket r _ _ => r
  | .branch r _ => r

mutual
/-- Structural size measure used for termination (not part of the source). -/
def NTree.sz : NTree R P → Nat
  | .bucket _ _ _ => 1
  | .branch _ subs => NTree.szL subs + 1

/-- Size of a list of trees (termination measure). -/
def NTree.szL : List (NTree R P) → Nat
  | [] => 0
  | t :: ts => NTree.sz t + NTree.szL ts + 1
end

mutual
/-- All points stored in the tree, in depth-first left-to-right order. -/
def NTree.allPoints : NTree R P → List P
  | .bucket _ pts _ => pts
  | .branch _ subs => NTree.allPointsL subs

/-- Points of a list of sibling subtrees, left to right. -/
def NTree.allPointsL : List (NTree R P) → List P
  | [] => []
  | t :: ts => NTree.allPoints t ++ NTree.allPointsL ts
end

/-- `NTree::new`: split the region once and wrap each sub-region in a fresh
empty `Bucket` with the given limit; the root is a `Branch` over them. -/
def NTree.new (ops : RegionOps R P) (region : R) (size : Nat) : NTree R P :=
  .branch region ((ops.split region).map (fun r => .bucket r [] size))

/-- `NTree::contains`: delegates to the root region. -/
def NTree.containsPt (ops : RegionOps R P) (t : NTree R P) (p : P) : Bool :=
  ops.contains t.region p

/-- Result of an insertion: the updated tree plus the returned `bool`;
`panic` is the `unwrap()` / `unreachable!()` branch, `fuelOut` means the
modelling fuel ran out (the source may diverge here). -/
inductive IRes (α : Type) where
  | ok (a : α) (b : Bool)
  | panic
  | fuelOut
deriving DecidableEq

mutual
/-- `NTree::insert`: if the root region does not contain the point, return
`false` without mutation; otherwise descend.  Fuel is consumed here, at each
re-entry of `insert`, which is the only source of unbounded recursion. -/
def NTree.insert (ops : RegionOps R P) : Nat → NTree R P → P → IRes (NTree R P)
  | n, t, p =>
    if ops.contains t.region p then
      match n with
      | 0 => .fuelOut
      | f + 1 => NTree.insertDescend ops f t p
    else .ok t false
termination_by n _ _ => (n, 0, 0)
decreasing_by all_goals (simp [NTree.sz, NTree.szL, Prod.lex_iff]; try omega)

/-- The descent loop of `insert`: at a `Branch` find the child containing the
point (via `insertFind`); at a `Bucket` append if `points.len() as u8` differs
from the limit, else split. -/
def NTree.insertDescend (ops : RegionOps R P) : Nat → NTree R P → P → IRes (NTree R P)
  | n, .bucket r pts lim, p =>
    if pts.length % 256 != lim then .ok (.bucket r (pts ++ [p]) lim) true
    else NTree.split_and_insert ops n r pts lim p
  | n, .branch r subs, p =>
    match NTree.insertFind ops n subs p with
    | .ok subs' b => .ok (.branch r subs') b
    | .panic => .panic
    | .fuelOut => .fuelOut
termination_by n t _ => (n, 3, NTree.sz t)
decreasing_by all_goals (simp [NTree.sz, NTree.szL, Prod.lex_iff]; try omega)

/-- `subregions.iter_mut().find(|s| s.region.contains(&point)).unwrap()`:
first child whose region contains the point is descended into and updated in
place; if none exists the `unwrap()` panics. -/
def NTree.insertFind (ops : RegionOps R P) : Nat → List (NTree R P) → P → IRes (List (NTree R P))
  | _, [], _ => .panic
  | n, s :: rest, p =>
    if ops.contains s.region p then
      match NTree.insertDescend ops n s p with
      | .ok s' b => .ok (s' :: rest) b
      | .panic => .panic
      | .fuelOut => .fuelOut
    else
      match NTree.insertFind ops n rest p with
      | .ok rest' b => .ok (s :: rest') b
      | .panic => .panic
      | .fuelOut => .fuelOut
termination_by n l _ => (n, 3, NTree.szL l)
decreasing_by all_goals (simp [NTree.sz, NTree.szL, Prod.lex_iff]; try omega)

/-- `split_and_insert`: take the full bucket's points and limit, replace the
node by `NTree::new(region, limit)`, reinsert the old points through the
normal `insert` path (their `bool` results are discarded), insert the new
point, and have the caller return `true`. -/
def NTree.split_and_insert (ops : RegionOps R P) :
    Nat → R → List P → Nat → P → IRes (NTree R P)
  | n, r, pts, lim, p =>
    match NTree.insertOld ops n (NTree.new ops r lim) pts with
    | .ok t' _ =>
      match NTree.insert ops n t' p with
      | .ok t'' _ => .ok t'' true
      | .panic => .panic
      | .fuelOut => .fuelOut
    | .panic => .panic
    | .fuelOut => .fuelOut
termination_by n _ _ _ _ => (n, 2, 0)
decreasing_by all_goals (simp [NTree.sz, NTree.szL, Prod.lex_iff]; try omega)

/-- The `for old_point in old_points` reinsertion loop of `split_and_insert`. -/
def NTree.insertOld (ops : RegionOps R P) : Nat → NTree R P → List P → IRes (NTree R P)
  | _, t, [] => .ok t true
  | n, t, x :: xs =>
    match NTree.insert ops n t x with
    | .ok t' _ => NTree.insertOld ops n t' xs
    | .panic => .panic
    | .fuelOut => .fuelOut
termination_by n _ xs => (n, 1, xs.length)
decreasing_by all_goals (simp [NTree.sz, NTree.szL, Prod.lex_iff]; try omega)
end

/-- `Vec::swap_remove(i)`: overwrite slot `i` with the last element, then
drop the last slot. -/
def swapRemove (l : List α) (i : Nat) : List α :=
  match l.getLast? with
  | none => l
  | some last => (l.set i last).dropLast

/-- Result of a removal: updated tree plus the returned `bool`, or the
`unwrap()` panic. -/
inductive RRes (α : Type) where
  | ok (a : α) (b : Bool)
  | panic
deriving DecidableEq

mutual
/-- `NTree::remove`: `false` without mutation if the root region does not
contain the point, otherwise descend exactly as in insertion.  `peq` is the
`PartialEq` instance of `P`. -/
def NTree.remove (ops : RegionOps R P) (peq : P → P → Bool) :
    NTree R P → P → RRes (NTree R P)
  | t, p =>
    if ops.contains t.region p then NTree.removeDescend ops peq t p
    else .ok t false

/-- The descent loop of `remove`: at a `Branch`, find the child containing
the point; at a `Bucket`, `position`-scan for an equal element and
`swap_remove` it (the commented-out merge on an emptied bucket does nothing). -/
def NTree.removeDescend (ops : RegionOps R P) (peq : P → P → Bool) :
    NTree R P → P → RRes (NTree R P)
  | .bucket r pts lim, p =>
    match pts.findIdx? (fun x => peq x p) with
    | none => .ok (.bucket r pts lim) false
    | some i => .ok (.bucket r (swapRemove pts i) lim) true
  | .branch r subs, p =>
    match NTree.removeFind ops peq subs p with
    | .ok subs' b => .ok (.branch r subs') b
    | .panic => .panic
termination_by t _ => NTree.sz t
decreasing_by all_goals (simp [NTree.sz, NTree.szL, Prod.lex_iff]; try omega)

/-- `find(...).unwrap()` of `remove`: first child whose region contains the
point, updated in place; panic when none exists. -/
def NTree.removeFind (ops : RegionOps R P) (peq : P → P → Bool) :
    List (NTree R P) → P → RRes (List (NTree R P))
  | [], _ => .panic
  | s :: rest, p =>
    if ops.contains s.region p then
      match NTree.removeDescend ops peq s p with
      | .ok s' b => .ok (s' :: rest) b
      | .panic => .panic
    else
      match NTree.removeFind ops peq rest p with
      | .ok rest' b => .ok (s :: rest') b
      | .panic => .panic
termination_by l _ => NTree.szL l
decreasing_by all_goals (simp [NTree.sz, NTree.szL, Prod.lex_iff]; try omega)
end

mutual
/-- `NTree::nearby`: `None` outside the root region; at a `Bucket` return its
points; at a `Branch`, `find` the first child containing the point and
`and_then` recurse into it (`None` when no child contains it). -/
def NTree.nearby (ops : RegionOps R P) : NTree R P → P → Option (List P)
  | t, p =>
    if ops.contains t.region p then
      match t with
      | .bucket _ pts _ => some pts
      | .branch _ subs => NTree.nearbyFind ops subs p
    else none
termination_by t _ => (NTree.sz t, 1)
decreasing_by all_goals (simp [NTree.sz, NTree.szL, Prod.lex_iff]; try omega)

/-- `subregions.iter().find(|r| r.contains(point)).and_then(|r| r.nearby(point))`. -/
def NTree.nearbyFind (ops : RegionOps R P) : List (NTree R P) → P → Option (List P)
  | [], _ => none
  | s :: rest, p =>
    if ops.contains s.region p then NTree.nearby ops s p
    else NTree.nearbyFind ops rest p
termination_by l _ => (NTree.szL l, 0)
decreasing_by all_goals (simp [NTree.sz, NTree.szL, Prod.lex_iff]; try omega)
end

mutual
/-- Point-counting size, the termination measure for the range-query cursor
(not part of the source). -/
def NTree.szP : NTree R P → Nat
  | .bucket _ pts _ => pts.length + 1
  | .branch _ subs => NTree.szPL subs + 1

/-- Point-counting size of a list of trees. -/
def NTree.szPL : List (NTree R P) → Nat
  | [] => 0
  | t :: ts => NTree.szP t + NTree.szPL ts
end

theorem NTree.szP_pos (t : NTree R P) : 0 < NTree.szP t := by
  cases t <;> simp [NTree.szP]

/-- Point-counting size of the cursor stack. -/
def stackSz : List (List (NTree R P)) → Nat
  | [] => 0
  | l :: ls => NTree.szPL l + stackSz ls

/-- Cursor state of `RangeQuery`: the current candidate-point iterator and the
explicit stack of remaining-sibling iterators (list head = top of stack).  The
`query` region and the region operations are immutable borrows in the source
and are passed as parameters to `next` here. -/
structure RangeQuery (R P : Type) where
  points : List P
  stack : List (List (NTree R P))

/-- Termination measure for the cursor. -/
def measRQ (s : RangeQuery R P) : Nat :=
  2 * stackSz s.stack + s.stack.length + s.points.length

/-- `NTree::range_query`: no candidate points yet; the stack holds one
iterator over the one-element slice `ref_slice(self)`. -/
def NTree.range_query (t : NTree R P) : RangeQuery R P :=
  ⟨[], [[t]]⟩

/-- `RangeQuery::next`: drain the candidate points, yielding those the query
region contains; when exhausted, pop a sibling iterator, skip children whose
region does not overlap the query, push the partially advanced iterator back
and either adopt a bucket's points or descend into a branch's children. -/
def RangeQuery.next (ops : RegionOps R P) (query : R) :
    RangeQuery R P → Option (P × RangeQuery R P)
  | ⟨p :: ps, st⟩ =>
    if ops.contains query p then some (p, ⟨ps, st⟩)
    else RangeQuery.next ops query ⟨ps, st⟩
  | ⟨[], []⟩ => none
  | ⟨[], [] :: st⟩ => RangeQuery.next ops query ⟨[], st⟩
  | ⟨[], (c :: cs) :: st⟩ =>
    if ops.overlaps c.region query then
      match c with
      | .bucket _ pts _ => RangeQuery.next ops query ⟨pts, cs :: st⟩
      | .branch _ subs => RangeQuery.next ops query ⟨[], subs :: cs :: st⟩
    else RangeQuery.next ops query ⟨[], cs :: st⟩
termination_by s => measRQ s
decreasing_by
all_goals simp [measRQ, stackSz, NTree.szPL, NTree.szP]
all_goals try omega
all_goals exact NTree.szP_pos c

theorem RangeQuery.next_measRQ (ops : RegionOps R P) (query : R) :
    ∀ (s : RangeQuery R P) p s', RangeQuery.next ops query s = some (p, s') →
      measRQ s' < measRQ s := by
  intro s
  induction s using RangeQuery.next.induct ops query with
  | case1 p ps st hc =>
    intro q s' h
    simp only [RangeQuery.next, hc, if_true, Option.some.injEq, Prod.mk.injEq] at h
    obtain ⟨rfl, rfl⟩ := h
    simp [measRQ]
  | case2 p ps st hc ih =>
    intro q s' h
    simp only [RangeQuery.next] at h
    rw [if_neg hc] at h
    have := ih q s' h
    simp [measRQ] at this ⊢
    omega
  | case3 => intro q s' h; simp [RangeQuery.next] at h
  | case4 st ih =>
    intro q s' h
    simp only [RangeQuery.next] at h
    have := ih q s' h
    simp [measRQ, stackSz, NTree.szPL] at this ⊢
    omega
  | case5 cs st r pts lim hov ih =>
    intro q s' h
    simp only [NTree.region] at hov
    simp only [RangeQuery.next, NTree.region] at h
    rw [if_pos hov] at h
    have := ih q s' h
    simp [measRQ, stackSz, NTree.szPL, NTree.szP] at this ⊢
    omega
  | case6 cs st r subs hov ih =>
    intro q s' h
    simp only [NTree.region] at hov
    simp only [RangeQuery.next, NTree.region] at h
    rw [if_pos hov] at h
    have := ih q s' h
    simp [measRQ, stackSz, NTree.szPL, NTree.szP] at this ⊢
    omega
  | case7 c cs st hov ih =>
    intro q s' h
    have hp := NTree.szP_pos c
    rcases c with ⟨r, pts, lim⟩ | ⟨r, subs⟩ <;>
      (simp only [NTree.region] at hov
       simp only [RangeQuery.next, NTree.region] at h
       rw [if_neg hov] at h
       have := ih q s' h
       simp [measRQ, stackSz, NTree.szPL] at this ⊢
       omega)

/-- The full (finite) yield of the cursor: repeatedly call `next` and collect
the produced points in order. -/
def RangeQuery.run (ops : RegionOps R P) (query : R) (s : RangeQuery R P) :
    List P :=
  match h : RangeQuery.next ops query s with
  | none => []
  | some (p, s') => p :: RangeQuery.run ops query s'
termination_by measRQ s
decreasing_by exact RangeQuery.next_measRQ ops query s p s' h

/-! ## Invariant predicates -/

mutual
/-- Well-formedness invariant 1 of the spec: every node's region contains all
points stored beneath it (in particular, every bucket's points lie in the
bucket's region). -/
def NTree.wfB (ops : RegionOps R P) : NTree R P → Bool
  | .bucket r pts _ => pts.all (fun p => ops.contains r p)
  | .branch r subs =>
    (NTree.allPointsL subs).all (fun p => ops.contains r p) && NTree.wfL ops subs
termination_by t => NTree.sz t
decreasing_by all_goals (simp [NTree.sz, NTree.szL]; try omega)

/-- `wfB` for each tree of a list. -/
def NTree.wfL (ops : RegionOps R P) : List (NTree R P) → Bool
  | [] => true
  | t :: ts => NTree.wfB ops t && NTree.wfL ops ts
termination_by l => NTree.szL l
decreasing_by all_goals (simp [NTree.sz, NTree.szL]; try omega)
end

mutual
/-- Capacity invariant of the spec: every bucket holds at most `bucket_limit`
points, and every limit fits in a `u8`. -/
def NTree.capOk : NTree R P → Prop
  | .bucket _ pts lim => pts.length ≤ lim ∧ lim < 256
  | .branch _ subs => NTree.capOkL subs
termination_by t => NTree.sz t
decreasing_by all_goals (simp [NTree.sz, NTree.szL]; try omega)

/-- `capOk` for each tree of a list. -/
def NTree.capOkL : List (NTree R P) → Prop
  | [] => True
  | t :: ts => NTree.capOk t ∧ NTree.capOkL ts
termination_by l => NTree.szL l
decreasing_by all_goals (simp [NTree.sz, NTree.szL]; try omega)
end

mutual
/-- Structure invariant: every branch's children carry exactly the regions of
`split()` of that branch's region, in order. -/
def NTree.regionsOk (ops : RegionOps R P) : NTree R P → Prop
  | .bucket _ _ _ => True
  | .branch r subs =>
    subs.map NTree.region = ops.split r ∧ NTree.regionsOkL ops subs
termination_by t => NTree.sz t
decreasing_by all_goals (simp [NTree.sz, NTree.szL]; try omega)

/-- `regionsOk` for each tree of a list. -/
def NTree.regionsOkL (ops : RegionOps R P) : List (NTree R P) → Prop
  | [] => True
  | t :: ts => NTree.regionsOk ops t ∧ NTree.regionsOkL ops ts
termination_by l => NTree.szL l
decreasing_by all_goals (simp [NTree.sz, NTree.szL]; try omega)
end

mutual
/-- Arity property: every branch has exactly as many children as `split()`
returns sub-regions for its region. -/
def NTree.arityOk (ops : RegionOps R P) : NTree R P → Prop
  | .bucket _ _ _ => True
  | .branch r subs =>
    subs.length = (ops.split r).length ∧ NTree.arityOkL ops subs
termination_by t => NTree.sz t
decreasing_by all_goals (simp [NTree.sz, NTree.szL]; try omega)

/-- `arityOk` for each tree of a list. -/
def NTree.arityOkL (ops : RegionOps R P) : List (NTree R P) → Prop
  | [] => True
  | t :: ts => NTree.arityOk ops t ∧ NTree.arityOkL ops ts
termination_by l => NTree.szL l
decreasing_by all_goals (simp [NTree.sz, NTree.szL]; try omega)
end

/-- The partition half of the `Region::split` contract that the tree relies
on: a point contained in a region is contained in (at least) one of its
sub-regions. -/
def PartitionContract (ops : RegionOps R P) : Prop :=
  ∀ r p, ops.contains r p = true → ∃ r' ∈ ops.split r, ops.contains r' p = true

/-- The `Region::overlaps` contract used for pruning: two regions containing
a common point overlap. -/
def OverlapsContract (ops : RegionOps R P) : Prop :=
  ∀ r q p, ops.contains r p = true → ops.contains q p = true →
    ops.overlaps r q = true

theorem NTree.wf_allPoints (ops : RegionOps R P) (t : NTree R P)
    (h : NTree.wfB ops t = true) :
    ∀ p ∈ NTree.allPoints t, ops.contains t.region p = true := by
  cases t with
  | bucket r pts lim =>
    simp [NTree.wfB, List.all_eq_true] at h
    simpa [NTree.allPoints, NTree.region] using h
  | branch r subs =>
    simp [NTree.wfB, List.all_eq_true] at h
    simpa [NTree.allPoints, NTree.region] using h.1

theorem NTree.wfL_cons (ops : RegionOps R P) (t : NTree R P)
    (ts : List (NTree R P)) :
    NTree.wfL ops (t :: ts) = (NTree.wfB ops t && NTree.wfL ops ts) := by
  simp [NTree.wfL]

theorem NTree.wfB_branch_subs (ops : RegionOps R P) (r : R)
    (subs : List (NTree R P)) (h : NTree.wfB ops (.branch r subs) = true) :
    NTree.wfL ops subs = true := by
  simp [NTree.wfB] at h
  exact h.2

/-! ## Range-query correctness -/

/-- The points a cursor state still owes: current candidates first, then the
points below each stacked sibling iterator, all filtered by the query. -/
def yieldOf (ops : RegionOps R P) (query : R) (s : RangeQuery R P) : List P :=
  s.points.filter (fun p => ops.contains query p) ++
    (s.stack.map
      (fun l => (NTree.allPointsL l).filter (fun p => ops.contains query p))).join

/-- Every sibling list on the cursor stack is well formed. -/
def stackWF (ops : RegionOps R P) (s : RangeQuery R P) : Prop :=
  ∀ l ∈ s.stack, NTree.wfL ops l = true

theorem next_yieldOf (ops : RegionOps R P) (query : R)
    (hov : OverlapsContract ops) :
    ∀ s : RangeQuery R P, stackWF ops s →
      (RangeQuery.next ops query s = none → yieldOf ops query s = []) ∧
      (∀ p s', RangeQuery.next ops query s = some (p, s') →
        stackWF ops s' ∧ yieldOf ops query s = p :: yieldOf ops query s') := by
  intro s
  induction s using RangeQuery.next.induct ops query with
  | case1 p ps st hc =>
    intro hwf
    constructor
    · intro h
      simp [RangeQuery.next, hc] at h
    · intro q s' h
      simp only [RangeQuery.next, hc, if_true, Option.some.injEq,
        Prod.mk.injEq] at h
      obtain ⟨rfl, rfl⟩ := h
      exact ⟨hwf, by simp [yieldOf, hc]⟩
  | case2 p ps st hc ih =>
    intro hwf
    have hwf' : stackWF ops ⟨ps, st⟩ := hwf
    have ihh := ih hwf'
    constructor
    · intro h
      simp only [RangeQuery.next] at h
      rw [if_neg hc] at h
      have := ihh.1 h
      simpa [yieldOf, hc] using this
    · intro q s' h
      simp only [RangeQuery.next] at h
      rw [if_neg hc] at h
      have := ihh.2 q s' h
      exact ⟨this.1, by simpa [yieldOf, hc] using this.2⟩
  | case3 =>
    intro hwf
    refine ⟨fun _ => ?_, fun q s' h => ?_⟩
    · simp [yieldOf]
    · simp [RangeQuery.next] at h
  | case4 st ih =>
    intro hwf
    have hwf' : stackWF ops ⟨[], st⟩ := by
      intro l hl
      exact hwf l (List.mem_cons_of_mem _ hl)
    have ihh := ih hwf'
    constructor
    · intro h
      simp only [RangeQuery.next] at h
      have := ihh.1 h
      simpa [yieldOf, NTree.allPointsL] using this
    · intro q s' h
      simp only [RangeQuery.next] at h
      have := ihh.2 q s' h
      exact ⟨this.1, by simpa [yieldOf, NTree.allPointsL] using this.2⟩
  | case5 cs st r pts lim hov' ih =>
    intro hwf
    have hcw : NTree.wfL ops (NTree.bucket r pts lim :: cs) = true :=
      hwf _ (List.mem_cons_self _ _)
    rw [NTree.wfL_cons, Bool.and_eq_true] at hcw
    have hwf' : stackWF ops ⟨pts, cs :: st⟩ := by
      intro l hl
      rcases List.mem_cons.1 hl with rfl | hl'
      · exact hcw.2
      · exact hwf l (List.mem_cons_of_mem _ hl')
    have ihh := ih hwf'
    have hyeq : yieldOf ops query ⟨[], (NTree.bucket r pts lim :: cs) :: st⟩ =
        yieldOf ops query ⟨pts, cs :: st⟩ := by
      simp [yieldOf, NTree.allPointsL, NTree.allPoints, List.filter_append,
        List.append_assoc]
    constructor
    · intro h
      simp only [NTree.region] at hov'
      simp only [RangeQuery.next, NTree.region] at h
      rw [if_pos hov'] at h
      rw [hyeq]
      exact ihh.1 h
    · intro q s' h
      simp only [NTree.region] at hov'
      simp only [RangeQuery.next, NTree.region] at h
      rw [if_pos hov'] at h
      have := ihh.2 q s' h
      exact ⟨this.1, by rw [hyeq]; exact this.2⟩
  | case6 cs st r subs hov' ih =>
    intro hwf
    have hcw : NTree.wfL ops (NTree.branch r subs :: cs) = true :=
      hwf _ (List.mem_cons_self _ _)
    rw [NTree.wfL_cons, Bool.and_eq_true] at hcw
    have hwf' : stackWF ops ⟨[], subs :: cs :: st⟩ := by
      intro l hl
      rcases List.mem_cons.1 hl with rfl | hl'
      · exact NTree.wfB_branch_subs ops r _ hcw.1
      · rcases List.mem_cons.1 hl' with rfl | hl''
        · exact hcw.2
        · exact hwf l (List.mem_cons_of_mem _ hl'')
    have ihh := ih hwf'
    have hyeq : yieldOf ops query ⟨[], (NTree.branch r subs :: cs) :: st⟩ =
        yieldOf ops query ⟨[], subs :: cs :: st⟩ := by
      simp [yieldOf, NTree.allPointsL, NTree.allPoints, List.filter_append,
        List.append_assoc]
    constructor
    · intro h
      simp only [NTree.region] at hov'
      simp only [RangeQuery.next, NTree.region] at h
      rw [if_pos hov'] at h
      rw [hyeq]
      exact ihh.1 h
    · intro q s' h
      simp only [NTree.region] at hov'
      simp only [RangeQuery.next, NTree.region] at h
      rw [if_pos hov'] at h
      have := ihh.2 q s' h
      exact ⟨this.1, by rw [hyeq]; exact this.2⟩
  | case7 c cs st hov' ih =>
    intro hwf
    have hcw : NTree.wfL ops (c :: cs) = true := hwf _ (List.mem_cons_self _ _)
    rw [NTree.wfL_cons, Bool.and_eq_true] at hcw
    have hwf' : stackWF ops ⟨[], cs :: st⟩ := by
      intro l hl
      rcases List.mem_cons.1 hl with rfl | hl'
      · exact hcw.2
      · exact hwf l (List.mem_cons_of_mem _ hl')
    have ihh := ih hwf'
    have hnone : ∀ x ∈ NTree.allPoints c, ops.contains query x = false := by
      intro x hx
      by_contra hq
      rw [Bool.not_eq_false] at hq
      have hcr := NTree.wf_allPoints ops c hcw.1 x hx
      exact absurd (hov c.region query x hcr hq) hov'
    have hyeq : yieldOf ops query ⟨[], (c :: cs) :: st⟩ =
        yieldOf ops query ⟨[], cs :: st⟩ := by
      have hfil : (NTree.allPoints c).filter
          (fun p => ops.contains query p) = [] := by
        rw [List.filter_eq_nil]
        intro a ha
        simp [hnone a ha]
      simp [yieldOf, NTree.allPointsL, List.filter_append, hfil]
    constructor
    · intro h
      rcases c with ⟨r, pts, lim⟩ | ⟨r, subs⟩ <;>
        (simp only [NTree.region] at hov'
         simp only [RangeQuery.next, NTree.region] at h
         rw [if_neg hov'] at h
         rw [hyeq]
         exact ihh.1 h)
    · intro q s' h
      rcases c with ⟨r, pts, lim⟩ | ⟨r, subs⟩ <;>
        (simp only [NTree.region] at hov'
         simp only [RangeQuery.next, NTree.region] at h
         rw [if_neg hov'] at h
         have := ihh.2 q s' h
         exact ⟨this.1, by rw [hyeq]; exact this.2⟩)

theorem run_yieldOf (ops : RegionOps R P) (query : R)
    (hov : OverlapsContract ops) :
    ∀ (N : Nat) (s : RangeQuery R P), measRQ s ≤ N → stackWF ops s →
      RangeQuery.run ops query s = yieldOf ops query s := by
  intro N
  induction N with
  | zero =>
    intro s hm hwf
    rw [RangeQuery.run]
    split
    · exact ((next_yieldOf ops query hov s hwf).1 (by assumption)).symm
    · next p s' h =>
      have := RangeQuery.next_measRQ ops query s p s' h
      omega
  | succ N ih =>
    intro s hm hwf
    rw [RangeQuery.run]
    split
    · exact ((next_yieldOf ops query hov s hwf).1 (by assumption)).symm
    · next p s' h =>
      have hlt := RangeQuery.next_measRQ ops query s p s' h
      have hstep := (next_yieldOf ops query hov s hwf).2 p s' h
      rw [hstep.2, ih s' (by omega) hstep.1]

/-- The total yield of `range_query` on a well-formed tree: the stored points
in depth-first order, filtered by the query region. -/
theorem range_query_run (ops : RegionOps R P) (query : R)
    (hov : OverlapsContract ops) (t : NTree R P) (hwf : NTree.wfB ops t = true) :
    RangeQuery.run ops query (NTree.range_query t) =
      (NTree.allPoints t).filter (fun p => ops.contains query p) := by
  have hswf : stackWF ops (NTree.range_query t) := by
    intro l hl
    simp [NTree.range_query] at hl
    subst hl
    simp [NTree.wfL, hwf]
  rw [run_yieldOf ops query hov (measRQ (NTree.range_query t)) _ le_rfl hswf]
  simp [yieldOf, NTree.range_query, NTree.allPointsL]

/-! ## Properties of `new` -/

theorem NTree.new_region (ops : RegionOps R P) (r : R) (s : Nat) :
    (NTree.new ops r s).region = r := rfl

theorem NTree.wfL_newBuckets (ops : RegionOps R P) (l : List R) (s : Nat) :
    NTree.wfL ops (l.map fun r => NTree.bucket r [] s) = true := by
  induction l with
  | nil => simp [NTree.wfL]
  | cons r rs ih => simp [NTree.wfL, NTree.wfB, ih]

theorem NTree.allPointsL_newBuckets (l : List R) (s : Nat) :
    NTree.allPointsL (l.map fun r => NTree.bucket (P := P) r [] s) = [] := by
  induction l with
  | nil => simp [NTree.allPointsL]
  | cons r rs ih => simp [NTree.allPointsL, NTree.allPoints, ih]

theorem NTree.new_wf (ops : RegionOps R P) (r : R) (s : Nat) :
    NTree.wfB ops (NTree.new ops r s) = true := by
  simp [NTree.new, NTree.wfB, NTree.allPointsL_newBuckets, NTree.wfL_newBuckets]

theorem NTree.new_allPoints (ops : RegionOps R P) (r : R) (s : Nat) :
    NTree.allPoints (NTree.new ops r s) = [] := by
  simp [NTree.new, NTree.allPoints, NTree.allPointsL_newBuckets]

theorem NTree.capOkL_newBuckets (l : List R) (s : Nat) (hs : s < 256) :
    NTree.capOkL (l.map fun r => NTree.bucket (P := P) r [] s) := by
  induction l with
  | nil => simp [NTree.capOkL]
  | cons r rs ih => simpa [NTree.capOkL, NTree.capOk, hs] using ih

theorem NTree.new_capOk (ops : RegionOps R P) (r : R) (s : Nat) (hs : s < 256) :
    NTree.capOk (NTree.new ops r s) := by
  simpa [NTree.new, NTree.capOk] using NTree.capOkL_newBuckets (ops.split r) s hs

theorem NTree.regionsOkL_newBuckets (ops : RegionOps R P) (l : List R) (s : Nat) :
    NTree.regionsOkL ops (l.map fun r => NTree.bucket r [] s) := by
  induction l with
  | nil => simp [NTree.regionsOkL]
  | cons r rs ih => simpa [NTree.regionsOkL, NTree.regionsOk] using ih

theorem NTree.new_regionsOk (ops : RegionOps R P) (r : R) (s : Nat) :
    NTree.regionsOk ops (NTree.new ops r s) := by
  simp only [NTree.new, NTree.regionsOk]
  refine ⟨?_, NTree.regionsOkL_newBuckets ops (ops.split r) s⟩
  rw [List.map_map]
  have hcomp : (NTree.region ∘ fun r : R => NTree.bucket (P := P) r [] s) = id := by
    funext x
    rfl
  rw [hcomp, List.map_id]

/-! ## The insert preservation bundle -/

/-- Conclusions carried through the insertion induction for `insert`. -/
def MIns (ops : RegionOps R P) (n : Nat) (t : NTree R P) (p : P) : Prop :=
  ∀ t' b, NTree.insert ops n t p = .ok t' b →
    t'.region = t.region ∧
    (NTree.capOk t → NTree.capOk t') ∧
    (NTree.regionsOk ops t → NTree.regionsOk ops t') ∧
    (PartitionContract ops → NTree.wfB ops t = true → NTree.regionsOk ops t →
      NTree.wfB ops t' = true ∧ NTree.regionsOk ops t' ∧
      (ops.contains t.region p = true →
        b = true ∧
        (NTree.allPoints t' : Multiset P) = p ::ₘ (NTree.allPoints t : Multiset P)) ∧
      (ops.contains t.region p = false → t' = t ∧ b = false))

/-- Conclusions for the descent loop (invoked only below a containing region). -/
def MDesc (ops : RegionOps R P) (n : Nat) (t : NTree R P) (p : P) : Prop :=
  ∀ t' b, NTree.insertDescend ops n t p = .ok t' b →
    ops.contains t.region p = true →
    t'.region = t.region ∧
    (NTree.capOk t → NTree.capOk t') ∧
    (NTree.regionsOk ops t → NTree.regionsOk ops t') ∧
    (PartitionContract ops → NTree.wfB ops t = true → NTree.regionsOk ops t →
      NTree.wfB ops t' = true ∧ NTree.regionsOk ops t' ∧ b = true ∧
      (NTree.allPoints t' : Multiset P) = p ::ₘ (NTree.allPoints t : Multiset P))

/-- Conclusions for the `find`-and-update loop over a branch's children. -/
def MFind (ops : RegionOps R P) (n : Nat) (l : List (NTree R P)) (p : P) : Prop :=
  ∀ l' b, NTree.insertFind ops n l p = .ok l' b →
    l'.map NTree.region = l.map NTree.region ∧
    (NTree.capOkL l → NTree.capOkL l') ∧
    (NTree.regionsOkL ops l → NTree.regionsOkL ops l') ∧
    (PartitionContract ops → NTree.wfL ops l = true → NTree.regionsOkL ops l →
      NTree.wfL ops l' = true ∧ NTree.regionsOkL ops l' ∧ b = true ∧
      (NTree.allPointsL l' : Multiset P) = p ::ₘ (NTree.allPointsL l : Multiset P))

/-- Conclusions for `split_and_insert`. -/
def MSpl (ops : RegionOps R P) (n : Nat) (r : R) (pts : List P) (lim : Nat)
    (p : P) : Prop :=
  ∀ t' b, NTree.split_and_insert ops n r pts lim p = .ok t' b →
    t'.region = r ∧
    (lim < 256 → NTree.capOk t') ∧
    NTree.regionsOk ops t' ∧ b = true ∧
    (PartitionContract ops → (∀ x ∈ pts, ops.contains r x = true) →
      ops.contains r p = true →
      NTree.wfB ops t' = true ∧
      (NTree.allPoints t' : Multiset P) = p ::ₘ (pts : Multiset P))

/-- Conclusions for the reinsertion loop of `split_and_insert`. -/
def MOld (ops : RegionOps R P) (n : Nat) (t : NTree R P) (xs : List P) : Prop :=
  ∀ t' b, NTree.insertOld ops n t xs = .ok t' b →
    t'.region = t.region ∧
    (NTree.capOk t → NTree.capOk t') ∧
    (NTree.regionsOk ops t → NTree.regionsOk ops t') ∧
    (PartitionContract ops → NTree.wfB ops t = true → NTree.regionsOk ops t →
      (∀ x ∈ xs, ops.contains t.region x = true) →
      NTree.wfB ops t' = true ∧ NTree.regionsOk ops t' ∧
      (NTree.allPoints t' : Multiset P) =
        (xs : Multiset P) + (NTree.allPoints t : Multiset P))

theorem coe_append_singleton (l : List α) (a : α) :
    ((l ++ [a] : List α) : Multiset α) = a ::ₘ (l : Multiset α) := by
  rw [← Multiset.coe_add, ← Multiset.cons_coe, Multiset.coe_nil,
    Multiset.add_cons, add_zero]

theorem NTree.insert_props (ops : RegionOps R P) :
    ∀ (n : Nat) (t : NTree R P) (p : P), MIns ops n t p := by
  refine NTree.insert.induct ops (MIns ops) (MDesc ops) (MFind ops) (MSpl ops)
    (MOld ops) ?_ ?_ ?_ ?_ ?_ ?_ ?_ ?_ ?_ ?_ ?_ ?_ ?_ ?_ ?_ ?_ ?_ ?_ ?_ ?_ ?_ ?_ ?_ ?_
  · -- insert, fuel 0, point contained: fuelOut, vacuous
    intro t p hc t' b h
    simp [NTree.insert, hc] at h
  · -- insert, fuel f+1, point contained: delegate to the descent
    intro t p hc f ih t' b h
    simp only [NTree.insert, hc, if_true] at h
    have hd := ih t' b h hc
    refine ⟨hd.1, hd.2.1, hd.2.2.1, ?_⟩
    intro hpart hwf hro
    obtain ⟨hw', hro', hb, hm⟩ := hd.2.2.2 hpart hwf hro
    exact ⟨hw', hro', fun _ => ⟨hb, hm⟩, fun hcf => by rw [hcf] at hc; cases hc⟩
  · -- insert, point not contained: identity, false
    intro n t p hc t' b h
    rw [NTree.insert.eq_def] at h
    simp only [if_neg hc] at h
    injection h with h1 h2
    subst h1
    subst h2
    refine ⟨rfl, id, id, ?_⟩
    intro _ hwf hro
    exact ⟨hwf, hro, fun hct => absurd hct hc, fun _ => ⟨rfl, rfl⟩⟩
  · -- descend at a bucket with room: push
    intro n r pts lim p hguard t' b h hcont
    simp only [NTree.insertDescend] at h
    rw [if_pos hguard] at h
    injection h with h1 h2
    subst h1
    subst h2
    simp only [NTree.region] at hcont
    refine ⟨rfl, ?_, ?_, ?_⟩
    · intro hcap
      simp only [NTree.capOk] at hcap ⊢
      have hne : pts.length % 256 ≠ lim := by simpa using hguard
      simp only [List.length_append, List.length_cons, List.length_nil]
      omega
    · intro _
      simp [NTree.regionsOk]
    · intro _ hwf _
      refine ⟨?_, by simp [NTree.regionsOk], rfl, ?_⟩
      · simp only [NTree.wfB, List.all_eq_true] at hwf ⊢
        intro x hx
        rcases List.mem_append.1 hx with hx' | hx'
        · exact hwf x hx'
        · rcases List.mem_singleton.1 hx' with rfl
          exact hcont
      · simp only [NTree.allPoints]
        exact coe_append_singleton pts p
  · -- descend at a full bucket: split and insert
    intro n r pts lim p hguard ihspl t' b h hcont
    simp only [NTree.insertDescend] at h
    rw [if_neg hguard] at h
    have hs := ihspl t' b h
    simp only [NTree.region] at hcont
    refine ⟨hs.1, ?_, fun _ => hs.2.2.1, ?_⟩
    · intro hcap
      simp only [NTree.capOk] at hcap
      exact hs.2.1 hcap.2
    · intro hpart hwf _
      simp only [NTree.wfB, List.all_eq_true] at hwf
      obtain ⟨hw', hm⟩ := hs.2.2.2.2 hpart hwf hcont
      exact ⟨hw', hs.2.2.1, hs.2.2.2.1, by simpa [NTree.allPoints] using hm⟩
  · -- descend at a branch: find succeeded
    intro n r subs p subs' b hfind ihf t' b2 h hcont
    simp only [NTree.insertDescend, hfind] at h
    injection h with h1 h2
    subst h1
    subst h2
    simp only [NTree.region] at hcont
    have hf := ihf subs' b hfind
    refine ⟨rfl, ?_, ?_, ?_⟩
    · intro hcap
      simp only [NTree.capOk] at hcap ⊢
      exact hf.2.1 hcap
    · intro hro
      simp only [NTree.regionsOk] at hro ⊢
      exact ⟨hf.1 ▸ hro.1, hf.2.2.1 hro.2⟩
    · intro hpart hwf hro
      simp only [NTree.wfB, Bool.and_eq_true] at hwf
      simp only [NTree.regionsOk] at hro
      obtain ⟨hwl', hrol', hb, hml⟩ := hf.2.2.2 hpart hwf.2 hro.2
      have hallc : ∀ x ∈ NTree.allPointsL subs', ops.contains r x = true := by
        intro x hx
        have hxm : x ∈ (NTree.allPointsL subs' : Multiset P) :=
          Multiset.mem_coe.2 hx
        rw [hml] at hxm
        rcases Multiset.mem_cons.1 hxm with rfl | hold
        · exact hcont
        · have := hwf.1
          rw [List.all_eq_true] at this
          exact this x (Multiset.mem_coe.1 hold)
      refine ⟨?_, ?_, hb, ?_⟩
      · simp only [NTree.wfB, Bool.and_eq_true, List.all_eq_true]
        exact ⟨hallc, hwl'⟩
      · simp only [NTree.regionsOk]
        exact ⟨hf.1 ▸ hro.1, hrol'⟩
      · simpa [NTree.allPoints] using hml
  · -- descend at a branch: find panicked, vacuous
    intro n r subs p hfind _ t' b h _
    simp [NTree.insertDescend, hfind] at h
  · -- descend at a branch: find ran out of fuel, vacuous
    intro n r subs p hfind _ t' b h _
    simp [NTree.insertDescend, hfind] at h
  · -- find on an empty child list: panic, vacuous
    intro n p l' b h
    simp [NTree.insertFind] at h
  · -- find: head child contains the point, descent succeeded
    intro n s rest p hc s' b hdesc ihd l' b2 h
    simp only [NTree.insertFind] at h
    rw [if_pos hc] at h
    simp only [hdesc] at h
    injection h with h1 h2
    subst h1
    subst h2
    have hd := ihd s' b hdesc hc
    refine ⟨?_, ?_, ?_, ?_⟩
    · simp [hd.1]
    · intro hcap
      simp only [NTree.capOkL] at hcap ⊢
      exact ⟨hd.2.1 hcap.1, hcap.2⟩
    · intro hro
      simp only [NTree.regionsOkL] at hro ⊢
      exact ⟨hd.2.2.1 hro.1, hro.2⟩
    · intro hpart hwl hrol
      simp only [NTree.wfL, Bool.and_eq_true] at hwl
      simp only [NTree.regionsOkL] at hrol
      obtain ⟨hw', hro', hb, hm⟩ := hd.2.2.2 hpart hwl.1 hrol.1
      refine ⟨?_, ?_, hb, ?_⟩
      · simp only [NTree.wfL, Bool.and_eq_true]
        exact ⟨hw', hwl.2⟩
      · simp only [NTree.regionsOkL]
        exact ⟨hro', hrol.2⟩
      · simp only [NTree.allPointsL, ← Multiset.coe_add, hm,
          Multiset.cons_add]
  · -- find: head contains, descent panicked, vacuous
    intro n s rest p hc hdesc _ l' b h
    simp only [NTree.insertFind] at h
    rw [if_pos hc] at h
    simp [hdesc] at h
  · -- find: head contains, descent ran out of fuel, vacuous
    intro n s rest p hc hdesc _ l' b h
    simp only [NTree.insertFind] at h
    rw [if_pos hc] at h
    simp [hdesc] at h
  · -- find: head does not contain, recursion succeeded
    intro n s rest p hc subs' b hfind ihf l' b2 h
    simp only [NTree.insertFind] at h
    rw [if_neg hc] at h
    simp only [hfind] at h
    injection h with h1 h2
    subst h1
    subst h2
    have hf := ihf subs' b hfind
    refine ⟨?_, ?_, ?_, ?_⟩
    · simp [hf.1]
    · intro hcap
      simp only [NTree.capOkL] at hcap ⊢
      exact ⟨hcap.1, hf.2.1 hcap.2⟩
    · intro hro
      simp only [NTree.regionsOkL] at hro ⊢
      exact ⟨hro.1, hf.2.2.1 hro.2⟩
    · intro hpart hwl hrol
      simp only [NTree.wfL, Bool.and_eq_true] at hwl
      simp only [NTree.regionsOkL] at hrol
      obtain ⟨hw', hro', hb, hm⟩ := hf.2.2.2 hpart hwl.2 hrol.2
      refine ⟨?_, ?_, hb, ?_⟩
      · simp only [NTree.wfL, Bool.and_eq_true]
        exact ⟨hwl.1, hw'⟩
      · simp only [NTree.regionsOkL]
        exact ⟨hrol.1, hro'⟩
      · simp only [NTree.allPointsL, ← Multiset.coe_add, hm,
          Multiset.add_cons]
  · -- find: head does not contain, recursion panicked, vacuous
    intro n s rest p hc hfind _ l' b h
    simp only [NTree.insertFind] at h
    rw [if_neg hc] at h
    simp [hfind] at h
  · -- find: head does not contain, recursion ran out of fuel, vacuous
    intro n s rest p hc hfind _ l' b h
    simp only [NTree.insertFind] at h
    rw [if_neg hc] at h
    simp [hfind] at h
  · -- split_and_insert: reinsertions and final insert succeeded
    intro n r pts lim p s' b hOld s'' b2 hIns ih5 ih1 t' b3 h
    simp only [NTree.split_and_insert, hOld, hIns] at h
    injection h with h1 h2
    subst h1
    subst h2
    have h5 := ih5 s' b hOld
    have h1' := ih1 s'' b2 hIns
    have hreg5 : s'.region = r := h5.1
    have hreg1 : s''.region = r := h1'.1.trans hreg5
    refine ⟨hreg1, ?_, ?_, rfl, ?_⟩
    · intro hlim
      exact h1'.2.1 (h5.2.1 (NTree.new_capOk ops r lim hlim))
    · exact h1'.2.2.1 (h5.2.2.1 (NTree.new_regionsOk ops r lim))
    · intro hpart hpts hcp
      have hptsnew : ∀ x ∈ pts,
          ops.contains (NTree.new ops r lim).region x = true := by
        simpa [NTree.new_region] using hpts
      obtain ⟨hw5, hro5, hm5⟩ := h5.2.2.2 hpart (NTree.new_wf ops r lim)
        (NTree.new_regionsOk ops r lim) hptsnew
      have hm5' : (NTree.allPoints s' : Multiset P) = (pts : Multiset P) := by
        rw [hm5, NTree.new_allPoints]
        simp
      obtain ⟨hw1, hro1, hctrue, _⟩ := h1'.2.2.2 hpart hw5 hro5
      obtain ⟨_, hm1⟩ := hctrue (by rw [hreg5]; exact hcp)
      exact ⟨hw1, by rw [hm1, hm5']⟩
  · -- split_and_insert: final insert panicked, vacuous
    intro n r pts lim p s' b hOld hIns _ _ t' b3 h
    simp [NTree.split_and_insert, hOld, hIns] at h
  · -- split_and_insert: final insert ran out of fuel, vacuous
    intro n r pts lim p s' b hOld hIns _ _ t' b3 h
    simp [NTree.split_and_insert, hOld, hIns] at h
  · -- split_and_insert: reinsertion panicked, vacuous
    intro n r pts lim p hOld _ t' b3 h
    simp [NTree.split_and_insert, hOld] at h
  · -- split_and_insert: reinsertion ran out of fuel, vacuous
    intro n r pts lim p hOld _ t' b3 h
    simp [NTree.split_and_insert, hOld] at h
  · -- reinsertion loop: no points left
    intro x t t' b h
    simp only [NTree.insertOld] at h
    injection h with h1 h2
    subst h1
    subst h2
    refine ⟨rfl, id, id, ?_⟩
    intro _ hwf hro _
    exact ⟨hwf, hro, by simp⟩
  · -- reinsertion loop: head insert succeeded
    intro n t x xs s' b hIns ih1 ih5 t' b2 h
    simp only [NTree.insertOld, hIns] at h
    have h1 := ih1 s' b hIns
    have h5 := ih5 t' b2 h
    refine ⟨h5.1.trans h1.1, fun hc => h5.2.1 (h1.2.1 hc),
      fun hc => h5.2.2.1 (h1.2.2.1 hc), ?_⟩
    intro hpart hw hro hxs
    have hx : ops.contains t.region x = true := hxs x (List.mem_cons_self x xs)
    obtain ⟨hw1, hro1, hctrue, _⟩ := h1.2.2.2 hpart hw hro
    obtain ⟨_, hm1⟩ := hctrue hx
    have hxs' : ∀ y ∈ xs, ops.contains s'.region y = true := by
      intro y hy
      rw [h1.1]
      exact hxs y (List.mem_cons_of_mem x hy)
    obtain ⟨hw5, hro5, hm5⟩ := h5.2.2.2 hpart hw1 hro1 hxs'
    refine ⟨hw5, hro5, ?_⟩
    rw [hm5, hm1, ← Multiset.cons_coe, Multiset.add_cons, Multiset.cons_add]
  · -- reinsertion loop: head insert panicked, vacuous
    intro n t x xs hIns _ t' b h
    simp [NTree.insertOld, hIns] at h
  · -- reinsertion loop: head insert ran out of fuel, vacuous
    intro n t x xs hIns _ t' b h
    simp [NTree.insertOld, hIns] at h

theorem NTree.insert_region (ops : RegionOps R P) (n : Nat) (t t' : NTree R P)
    (p : P) (b : Bool) (h : NTree.insert ops n t p = .ok t' b) :
    t'.region = t.region :=
  (NTree.insert_props ops n t p t' b h).1

theorem NTree.insert_capOk (ops : RegionOps R P) (n : Nat) (t t' : NTree R P)
    (p : P) (b : Bool) (h : NTree.insert ops n t p = .ok t' b)
    (hc : NTree.capOk t) : NTree.capOk t' :=
  (NTree.insert_props ops n t p t' b h).2.1 hc

theorem NTree.insert_regionsOk (ops : RegionOps R P) (n : Nat)
    (t t' : NTree R P) (p : P) (b : Bool)
    (h : NTree.insert ops n t p = .ok t' b) (hro : NTree.regionsOk ops t) :
    NTree.regionsOk ops t' :=
  (NTree.insert_props ops n t p t' b h).2.2.1 hro

theorem NTree.insert_wfB (ops : RegionOps R P) (n : Nat) (t t' : NTree R P)
    (p : P) (b : Bool) (h : NTree.insert ops n t p = .ok t' b)
    (hpart : PartitionContract ops) (hw : NTree.wfB ops t = true)
    (hro : NTree.regionsOk ops t) : NTree.wfB ops t' = true :=
  ((NTree.insert_props ops n t p t' b h).2.2.2 hpart hw hro).1

theorem NTree.insert_contained_multiset (ops : RegionOps R P) (n : Nat)
    (t t' : NTree R P) (p : P) (b : Bool)
    (h : NTree.insert ops n t p = .ok t' b) (hpart : PartitionContract ops)
    (hw : NTree.wfB ops t = true) (hro : NTree.regionsOk ops t)
    (hc : ops.contains t.region p = true) :
    b = true ∧
      (NTree.allPoints t' : Multiset P) = p ::ₘ (NTree.allPoints t : Multiset P) :=
  ((NTree.insert_props ops n t p t' b h).2.2.2 hpart hw hro).2.2.1 hc

theorem NTree.insertOld_props (ops : RegionOps R P) :
    ∀ (xs : List P) (n : Nat) (t : NTree R P), MOld ops n t xs := by
  intro xs
  induction xs with
  | nil =>
    intro n t t' b h
    simp only [NTree.insertOld] at h
    injection h with h1 h2
    subst h1
    subst h2
    refine ⟨rfl, id, id, ?_⟩
    intro _ hwf hro _
    exact ⟨hwf, hro, by simp⟩
  | cons x xs ih =>
    intro n t t' b h
    simp only [NTree.insertOld] at h
    cases hIns : NTree.insert ops n t x with
    | ok s' b1 =>
      rw [hIns] at h
      dsimp only at h
      have h1 := NTree.insert_props ops n t x s' b1 hIns
      have h5 := ih n s' t' b h
      refine ⟨h5.1.trans h1.1, fun hc => h5.2.1 (h1.2.1 hc),
        fun hc => h5.2.2.1 (h1.2.2.1 hc), ?_⟩
      intro hpart hw hro hxs
      have hx : ops.contains t.region x = true :=
        hxs x (List.mem_cons_self x xs)
      obtain ⟨hw1, hro1, hctrue, _⟩ := h1.2.2.2 hpart hw hro
      obtain ⟨_, hm1⟩ := hctrue hx
      have hxs' : ∀ y ∈ xs, ops.contains s'.region y = true := by
        intro y hy
        rw [h1.1]
        exact hxs y (List.mem_cons_of_mem x hy)
      obtain ⟨hw5, hro5, hm5⟩ := h5.2.2.2 hpart hw1 hro1 hxs'
      refine ⟨hw5, hro5, ?_⟩
      rw [hm5, hm1, ← Multiset.cons_coe, Multiset.add_cons, Multiset.cons_add]
    | panic => rw [hIns] at h; dsimp only at h; cases h
    | fuelOut => rw [hIns] at h; dsimp only at h; cases h

theorem NTree.split_and_insert_props (ops : RegionOps R P) :
    ∀ (n : Nat) (r : R) (pts : List P) (lim : Nat) (p : P),
      MSpl ops n r pts lim p := by
  intro n r pts lim p t' b h
  simp only [NTree.split_and_insert] at h
  cases hOld : NTree.insertOld ops n (NTree.new ops r lim) pts with
  | ok s' b1 =>
    rw [hOld] at h
    dsimp only at h
    cases hIns : NTree.insert ops n s' p with
    | ok s'' b2 =>
      rw [hIns] at h
      dsimp only at h
      injection h with h1 h2
      subst h1
      subst h2
      have h5 := NTree.insertOld_props ops pts n (NTree.new ops r lim) s' b1 hOld
      have h1' := NTree.insert_props ops n s' p s'' b2 hIns
      have hreg5 : s'.region = r := h5.1
      have hreg1 : s''.region = r := h1'.1.trans hreg5
      refine ⟨hreg1, ?_, ?_, rfl, ?_⟩
      · intro hlim
        exact h1'.2.1 (h5.2.1 (NTree.new_capOk ops r lim hlim))
      · exact h1'.2.2.1 (h5.2.2.1 (NTree.new_regionsOk ops r lim))
      · intro hpart hpts hcp
        have hptsnew : ∀ x ∈ pts,
            ops.contains (NTree.new ops r lim).region x = true := by
          simpa [NTree.new_region] using hpts
        obtain ⟨hw5, hro5, hm5⟩ := h5.2.2.2 hpart (NTree.new_wf ops r lim)
          (NTree.new_regionsOk ops r lim) hptsnew
        have hm5' : (NTree.allPoints s' : Multiset P) = (pts : Multiset P) := by
          rw [hm5, NTree.new_allPoints]
          simp
        obtain ⟨hw1, hro1, hctrue, _⟩ := h1'.2.2.2 hpart hw5 hro5
        obtain ⟨_, hm1⟩ := hctrue (by rw [hreg5]; exact hcp)
        exact ⟨hw1, by rw [hm1, hm5']⟩
    | panic => rw [hIns] at h; dsimp only at h; cases h
    | fuelOut => rw [hIns] at h; dsimp only at h; cases h
  | panic => rw [hOld] at h; dsimp only at h; cases h
  | fuelOut => rw [hOld] at h; dsimp only at h; cases h

/-! ## Sequences of insertions -/

/-- Perform a sequence of `insert` calls (each with its own fuel), keeping the
tree unchanged whenever a call does not return normally.  Models "a finite
sequence of (successful or failed) insertions". -/
def insertSeq (ops : RegionOps R P) : NTree R P → List (P × Nat) → NTree R P
  | t, [] => t
  | t, (p, n) :: rest =>
    insertSeq ops
      (match NTree.insert ops n t p with
        | .ok t' _ => t'
        | .panic => t
        | .fuelOut => t) rest

theorem insertSeq_inv (ops : RegionOps R P) (hpart : PartitionContract ops) :
    ∀ (ps : List (P × Nat)) (t : NTree R P),
      NTree.wfB ops t = true → NTree.regionsOk ops t →
      NTree.wfB ops (insertSeq ops t ps) = true ∧
        NTree.regionsOk ops (insertSeq ops t ps) := by
  intro ps
  induction ps with
  | nil => intro t hw hro; exact ⟨hw, hro⟩
  | cons hd rest ih =>
    intro t hw hro
    obtain ⟨p, n⟩ := hd
    simp only [insertSeq]
    cases hIns : NTree.insert ops n t p with
    | ok t' b =>
      exact ih t' (NTree.insert_wfB ops n t t' p b hIns hpart hw hro)
        (NTree.insert_regionsOk ops n t t' p b hIns hro)
    | panic => exact ih t hw hro
    | fuelOut => exact ih t hw hro

/-! ## Removal: shapes, bucket contents, swap_remove -/

/-- The shape of a tree: everything except the stored points. -/
inductive TShape (R : Type) : Type where
  | bucket (region : R) (bucket_limit : Nat)
  | branch (region : R) (subs : List (TShape R))

mutual
/-- Erase the stored points, keeping regions, limits and structure. -/
def NTree.shapeOf : NTree R P → TShape R
  | .bucket r _ lim => .bucket r lim
  | .branch r subs => .branch r (NTree.shapesOf subs)
termination_by t => NTree.sz t
decreasing_by all_goals (simp [NTree.sz, NTree.szL]; try omega)

/-- Shapes of a list of trees. -/
def NTree.shapesOf : List (NTree R P) → List (TShape R)
  | [] => []
  | t :: ts => NTree.shapeOf t :: NTree.shapesOf ts
termination_by l => NTree.szL l
decreasing_by all_goals (simp [NTree.sz, NTree.szL]; try omega)
end

mutual
/-- The per-bucket point lists of the tree, in depth-first order. -/
def NTree.bucketLists : NTree R P → List (List P)
  | .bucket _ pts _ => [pts]
  | .branch _ subs => NTree.bucketListsL subs
termination_by t => NTree.sz t
decreasing_by all_goals (simp [NTree.sz, NTree.szL]; try omega)

/-- Bucket point lists of a list of trees. -/
def NTree.bucketListsL : List (NTree R P) → List (List P)
  | [] => []
  | t :: ts => NTree.bucketLists t ++ NTree.bucketListsL ts
termination_by l => NTree.szL l
decreasing_by all_goals (simp [NTree.sz, NTree.szL]; try omega)
end

theorem dropLast_cons_ne_nil (a : α) (l : List α) (h : l ≠ []) :
    (a :: l).dropLast = a :: l.dropLast := by
  cases l with
  | nil => exact absurd rfl h
  | cons b l' => simp [List.dropLast_cons₂]

theorem swapRemove_cons_cons (a b : α) (l : List α) (j : Nat) :
    swapRemove (a :: b :: l) (j + 1) = a :: swapRemove (b :: l) j := by
  simp only [swapRemove, List.getLast?_cons_cons]
  cases hgl : (b :: l).getLast? with
  | none => simp [List.getLast?_eq_none_iff] at hgl
  | some last =>
    simp only [List.set_cons_succ]
    rw [dropLast_cons_ne_nil]
    intro hnil
    have := congrArg List.length hnil
    simp [List.length_set] at this

theorem swapRemove_multiset (l : List α) (i : Nat) (h : i < l.length) :
    (l : Multiset α) = l.get ⟨i, h⟩ ::ₘ (swapRemove l i : Multiset α) := by
  induction l generalizing i with
  | nil => simp at h
  | cons a l' ih =>
    cases l' with
    | nil =>
      have hi : i = 0 := by simpa using Nat.lt_one_iff.1 (by simpa using h)
      subst hi
      simp [swapRemove]
    | cons b l'' =>
      cases i with
      | zero =>
        simp only [swapRemove, List.getLast?_cons_cons]
        cases hgl : (b :: l'').getLast? with
        | none => simp [List.getLast?_eq_none_iff] at hgl
        | some last =>
          simp only [List.set_cons_zero, List.get]
          rw [dropLast_cons_ne_nil last (b :: l'') (by simp)]
          have hlast : (b :: l'') = (b :: l'').dropLast ++ [last] :=
            (List.dropLast_append_getLast? last hgl).symm
          calc ((a :: b :: l'' : List α) : Multiset α)
              = a ::ₘ ((b :: l'' : List α) : Multiset α) := by
                rw [Multiset.cons_coe]
            _ = a ::ₘ (((b :: l'').dropLast ++ [last] : List α) : Multiset α) := by
                rw [← hlast]
            _ = a ::ₘ last ::ₘ ((b :: l'').dropLast : Multiset α) := by
                rw [coe_append_singleton]
            _ = a ::ₘ ((last :: (b :: l'').dropLast : List α) : Multiset α) := by
                rw [Multiset.cons_coe]
      | succ j =>
        rw [swapRemove_cons_cons]
        have hj : j < (b :: l'').length := by simpa using h
        have := ih j hj
        calc ((a :: b :: l'' : List α) : Multiset α)
            = a ::ₘ ((b :: l'' : List α) : Multiset α) := by
              rw [Multiset.cons_coe]
          _ = a ::ₘ ((b :: l'').get ⟨j, hj⟩ ::ₘ
                (swapRemove (b :: l'') j : Multiset α)) := by rw [← this]
          _ = (b :: l'').get ⟨j, hj⟩ ::ₘ a ::ₘ
                (swapRemove (b :: l'') j : Multiset α) := by
              rw [Multiset.cons_swap]
          _ = (b :: l'').get ⟨j, hj⟩ ::ₘ
                ((a :: swapRemove (b :: l'') j : List α) : Multiset α) := by
              rw [Multiset.cons_coe]
          _ = _ := by simp [List.get]

theorem swapRemove_length_le (l : List α) (i : Nat) :
    (swapRemove l i).length ≤ l.length := by
  simp only [swapRemove]
  cases l.getLast? with
  | none => exact le_rfl
  | some last => simp [List.length_dropLast, List.length_set]

/-- Conclusions of the removal descent. -/
def MRemD (ops : RegionOps R P) (peq : P → P → Bool) (t : NTree R P)
    (p : P) : Prop :=
  ∀ t' b, NTree.removeDescend ops peq t p = .ok t' b →
    NTree.shapeOf t' = NTree.shapeOf t ∧
    (NTree.capOk t → NTree.capOk t') ∧
    (b = false → t' = t) ∧
    (b = true →
      (∃ x, peq x p = true ∧
        (NTree.allPoints t : Multiset P) =
          x ::ₘ (NTree.allPoints t' : Multiset P)) ∧
      ∃ pre ls ls' post, NTree.bucketLists t = pre ++ ls :: post ∧
        NTree.bucketLists t' = pre ++ ls' :: post)

/-- Conclusions of the removal `find` loop. -/
def MRemL (ops : RegionOps R P) (peq : P → P → Bool) (l : List (NTree R P))
    (p : P) : Prop :=
  ∀ l' b, NTree.removeFind ops peq l p = .ok l' b →
    NTree.shapesOf l' = NTree.shapesOf l ∧
    (NTree.capOkL l → NTree.capOkL l') ∧
    (b = false → l' = l) ∧
    (b = true →
      (∃ x, peq x p = true ∧
        (NTree.allPointsL l : Multiset P) =
          x ::ₘ (NTree.allPointsL l' : Multiset P)) ∧
      ∃ pre ls ls' post, NTree.bucketListsL l = pre ++ ls :: post ∧
        NTree.bucketListsL l' = pre ++ ls' :: post)

theorem NTree.removeDescend_props (ops : RegionOps R P) (peq : P → P → Bool) :
    ∀ (t : NTree R P) (p : P), MRemD ops peq t p := by
  refine NTree.removeDescend.induct ops peq (MRemD ops peq) (MRemL ops peq)
    ?_ ?_ ?_ ?_ ?_ ?_ ?_ ?_ ?_
  · -- bucket, no equal element: unchanged, false
    intro r pts lim p hfind t' b h
    simp only [NTree.removeDescend, hfind] at h
    injection h with h1 h2
    subst h1
    subst h2
    exact ⟨rfl, id, fun _ => rfl, fun hb => Bool.noConfusion hb⟩
  · -- bucket, equal element found: swap_remove
    intro r pts lim p i hfind t' b h
    simp only [NTree.removeDescend, hfind] at h
    injection h with h1 h2
    subst h1
    subst h2
    obtain ⟨hi, hpi, -⟩ := List.findIdx?_eq_some_iff_getElem.1 hfind
    refine ⟨by simp [NTree.shapeOf], ?_, fun hb => Bool.noConfusion hb, ?_⟩
    · intro hcap
      simp only [NTree.capOk] at hcap ⊢
      have := swapRemove_length_le pts i
      omega
    · intro _
      refine ⟨⟨pts.get ⟨i, hi⟩, ?_, ?_⟩, [], pts, swapRemove pts i, [], by
        simp [NTree.bucketLists], by simp [NTree.bucketLists]⟩
      · simpa using hpi
      · simpa [NTree.allPoints] using swapRemove_multiset pts i hi
  · -- branch: find succeeded
    intro r subs p subs' b hfind ihf t' b2 h
    simp only [NTree.removeDescend, hfind] at h
    injection h with h1 h2
    subst h1
    subst h2
    have hf := ihf subs' b hfind
    refine ⟨?_, ?_, ?_, ?_⟩
    · simp only [NTree.shapeOf, hf.1]
    · intro hcap
      simp only [NTree.capOk] at hcap ⊢
      exact hf.2.1 hcap
    · intro hb
      rw [hf.2.2.1 hb]
    · intro hb
      obtain ⟨⟨x, hx, hm⟩, pre, ls, ls', post, hb1, hb2⟩ := hf.2.2.2 hb
      exact ⟨⟨x, hx, by simpa [NTree.allPoints] using hm⟩,
        pre, ls, ls', post, by simpa [NTree.bucketLists] using hb1,
        by simpa [NTree.bucketLists] using hb2⟩
  · -- branch: find panicked, vacuous
    intro r subs p hfind _ t' b h
    simp [NTree.removeDescend, hfind] at h
  · -- find on []: panic, vacuous
    intro p l' b h
    simp [NTree.removeFind] at h
  · -- find: head contains, descent succeeded
    intro s rest p hc s' b hdesc ihd l' b2 h
    simp only [NTree.removeFind] at h
    rw [if_pos hc] at h
    simp only [hdesc] at h
    injection h with h1 h2
    subst h1
    subst h2
    have hd := ihd s' b hdesc
    refine ⟨?_, ?_, ?_, ?_⟩
    · simp only [NTree.shapesOf, hd.1]
    · intro hcap
      simp only [NTree.capOkL] at hcap ⊢
      exact ⟨hd.2.1 hcap.1, hcap.2⟩
    · intro hb
      rw [hd.2.2.1 hb]
    · intro hb
      obtain ⟨⟨x, hx, hm⟩, pre, ls, ls', post, hb1, hb2⟩ := hd.2.2.2 hb
      refine ⟨⟨x, hx, ?_⟩, pre, ls, ls', post ++ NTree.bucketListsL rest, ?_, ?_⟩
      · simp only [NTree.allPointsL, ← Multiset.coe_add, hm, Multiset.cons_add]
      · simp [NTree.bucketListsL, hb1]
      · simp [NTree.bucketListsL, hb2]
  · -- find: head contains, descent panicked, vacuous
    intro s rest p hc hdesc _ l' b h
    simp only [NTree.removeFind] at h
    rw [if_pos hc] at h
    simp [hdesc] at h
  · -- find: head does not contain, recursion succeeded
    intro s rest p hc subs' b hfind ihf l' b2 h
    simp only [NTree.removeFind] at h
    rw [if_neg hc] at h
    simp only [hfind] at h
    injection h with h1 h2
    subst h1
    subst h2
    have hf := ihf subs' b hfind
    refine ⟨?_, ?_, ?_, ?_⟩
    · simp only [NTree.shapesOf, hf.1]
    · intro hcap
      simp only [NTree.capOkL] at hcap ⊢
      exact ⟨hcap.1, hf.2.1 hcap.2⟩
    · intro hb
      rw [hf.2.2.1 hb]
    · intro hb
      obtain ⟨⟨x, hx, hm⟩, pre, ls, ls', post, hb1, hb2⟩ := hf.2.2.2 hb
      refine ⟨⟨x, hx, ?_⟩, NTree.bucketLists s ++ pre, ls, ls', post, ?_, ?_⟩
      · simp only [NTree.allPointsL, ← Multiset.coe_add, hm, Multiset.add_cons]
      · simp [NTree.bucketListsL, hb1]
      · simp [NTree.bucketListsL, hb2]
  · -- find: head does not contain, recursion panicked, vacuous
    intro s rest p hc hfind _ l' b h
    simp only [NTree.removeFind] at h
    rw [if_neg hc] at h
    simp [hfind] at h

theorem NTree.remove_props (ops : RegionOps R P) (peq : P → P → Bool)
    (t : NTree R P) (p : P) (t' : NTree R P) (b : Bool)
    (h : NTree.remove ops peq t p = .ok t' b) :
    NTree.shapeOf t' = NTree.shapeOf t ∧
    (NTree.capOk t → NTree.capOk t') ∧
    (b = false → t' = t) ∧
    (b = true →
      (∃ x, peq x p = true ∧
        (NTree.allPoints t : Multiset P) =
          x ::ₘ (NTree.allPoints t' : Multiset P)) ∧
      ∃ pre ls ls' post, NTree.bucketLists t = pre ++ ls :: post ∧
        NTree.bucketLists t' = pre ++ ls' :: post) := by
  rw [NTree.remove.eq_def] at h
  dsimp only at h
  by_cases hc : ops.contains t.region p = true
  · rw [if_pos hc] at h
    exact NTree.removeDescend_props ops peq t p t' b h
  · rw [if_neg hc] at h
    injection h with h1 h2
    subst h1
    subst h2
    exact ⟨rfl, id, fun _ => rfl, fun hb => Bool.noConfusion hb⟩

/-! ## Panic-freedom under the partition contract -/

theorem NTree.regionsOk_branch_find (ops : RegionOps R P)
    (hpart : PartitionContract ops) (r : R) (subs : List (NTree R P))
    (hro : NTree.regionsOk ops (.branch r subs))
    (hc : ops.contains r p = true) :
    ∃ s ∈ subs, ops.contains s.region p = true := by
  simp only [NTree.regionsOk] at hro
  obtain ⟨r', hr', hcr'⟩ := hpart r p hc
  rw [← hro.1] at hr'
  obtain ⟨s, hs, rfl⟩ := List.mem_map.1 hr'
  exact ⟨s, hs, hcr'⟩

theorem NTree.insert_no_panic (ops : RegionOps R P) :
    ∀ (n : Nat) (t : NTree R P) (p : P), PartitionContract ops →
      NTree.regionsOk ops t → NTree.insert ops n t p ≠ .panic := by
  refine NTree.insert.induct ops
    (fun n t p => PartitionContract ops → NTree.regionsOk ops t →
      NTree.insert ops n t p ≠ .panic)
    (fun n t p => PartitionContract ops → NTree.regionsOk ops t →
      ops.contains t.region p = true → NTree.insertDescend ops n t p ≠ .panic)
    (fun n l p => PartitionContract ops → NTree.regionsOkL ops l →
      (∃ s ∈ l, ops.contains s.region p = true) →
      NTree.insertFind ops n l p ≠ .panic)
    (fun n r pts lim p => PartitionContract ops →
      NTree.split_and_insert ops n r pts lim p ≠ .panic)
    (fun n t xs => PartitionContract ops → NTree.regionsOk ops t →
      NTree.insertOld ops n t xs ≠ .panic)
    ?_ ?_ ?_ ?_ ?_ ?_ ?_ ?_ ?_ ?_ ?_ ?_ ?_ ?_ ?_ ?_ ?_ ?_ ?_ ?_ ?_ ?_ ?_ ?_
  · intro t p hc _ _
    simp [NTree.insert, hc]
  · intro t p hc f ih hpart hro
    simp only [NTree.insert, hc, if_true]
    exact ih hpart hro hc
  · intro n t p hc _ _
    rw [NTree.insert.eq_def]
    simp [if_neg hc]
  · intro n r pts lim p hguard _ _ _
    simp only [NTree.insertDescend]
    rw [if_pos hguard]
    simp
  · intro n r pts lim p hguard ih hpart _ _
    simp only [NTree.insertDescend]
    rw [if_neg hguard]
    exact ih hpart
  · intro n r subs p subs' b hfind _ _ _ _
    simp [NTree.insertDescend, hfind]
  · intro n r subs p hfind ihf hpart hro hc
    simp only [NTree.region] at hc
    exact absurd hfind (by
      have hwit := NTree.regionsOk_branch_find ops hpart r subs hro hc
      have hrol : NTree.regionsOkL ops subs := by
        simp only [NTree.regionsOk] at hro
        exact hro.2
      intro hp
      exact ihf hpart hrol hwit hp)
  · intro n r subs p hfind _ _ _ _
    simp [NTree.insertDescend, hfind]
  · intro n p _ _ hwit
    simp at hwit
  · intro n s rest p hc s' b hdesc _ _ _ _
    simp only [NTree.insertFind]
    rw [if_pos hc]
    simp [hdesc]
  · intro n s rest p hc hdesc ihd hpart hrol _
    have hros : NTree.regionsOk ops s := by
      simp only [NTree.regionsOkL] at hrol
      exact hrol.1
    exact absurd hdesc (ihd hpart hros hc)
  · intro n s rest p hc hdesc _ _ _ _
    simp only [NTree.insertFind]
    rw [if_pos hc]
    simp [hdesc]
  · intro n s rest p hc subs' b hfind _ _ _ _
    simp only [NTree.insertFind]
    rw [if_neg hc]
    simp [hfind]
  · intro n s rest p hc hfind ihf hpart hrol hwit
    have hros : NTree.regionsOkL ops rest := by
      simp only [NTree.regionsOkL] at hrol
      exact hrol.2
    obtain ⟨s0, hs0, hcs0⟩ := hwit
    rcases List.mem_cons.1 hs0 with rfl | hs0'
    · rw [hcs0] at hc
      exact absurd rfl hc
    · exact absurd hfind (ihf hpart hros ⟨s0, hs0', hcs0⟩)
  · intro n s rest p hc hfind _ _ _ _
    simp only [NTree.insertFind]
    rw [if_neg hc]
    simp [hfind]
  · intro n r pts lim p s' b hOld s'' b2 hIns _ _ _
    simp [NTree.split_and_insert, hOld, hIns]
  · intro n r pts lim p s' b hOld hIns _ ih1 hpart
    have hro' : NTree.regionsOk ops s' :=
      (NTree.insertOld_props ops pts n (NTree.new ops r lim) s' b hOld).2.2.1
        (NTree.new_regionsOk ops r lim)
    exact absurd hIns (ih1 hpart hro')
  · intro n r pts lim p s' b hOld hIns _ _ _
    simp [NTree.split_and_insert, hOld, hIns]
  · intro n r pts lim p hOld ih5 hpart
    exact absurd hOld (ih5 hpart (NTree.new_regionsOk ops r lim))
  · intro n r pts lim p hOld _ _
    simp [NTree.split_and_insert, hOld]
  · intro x t _ _
    simp [NTree.insertOld]
  · intro n t x xs s' b hIns _ ih5 hpart hro
    simp only [NTree.insertOld, hIns]
    exact ih5 hpart
      (NTree.insert_regionsOk ops n t s' x b hIns hro)
  · intro n t x xs hIns ih1 hpart hro
    exact absurd hIns (ih1 hpart hro)
  · intro n t x xs hIns _ _ _
    simp [NTree.insertOld, hIns]

theorem NTree.removeDescend_no_panic (ops : RegionOps R P)
    (peq : P → P → Bool) :
    ∀ (t : NTree R P) (p : P), PartitionContract ops →
      NTree.regionsOk ops t → ops.contains t.region p = true →
      NTree.removeDescend ops peq t p ≠ .panic := by
  refine NTree.removeDescend.induct ops peq
    (fun t p => PartitionContract ops → NTree.regionsOk ops t →
      ops.contains t.region p = true →
      NTree.removeDescend ops peq t p ≠ .panic)
    (fun l p => PartitionContract ops → NTree.regionsOkL ops l →
      (∃ s ∈ l, ops.contains s.region p = true) →
      NTree.removeFind ops peq l p ≠ .panic)
    ?_ ?_ ?_ ?_ ?_ ?_ ?_ ?_ ?_
  · intro r pts lim p hfind _ _ _
    simp [NTree.removeDescend, hfind]
  · intro r pts lim p i hfind _ _ _
    simp [NTree.removeDescend, hfind]
  · intro r subs p subs' b hfind _ _ _ _
    simp [NTree.removeDescend, hfind]
  · intro r subs p hfind ihf hpart hro hc
    simp only [NTree.region] at hc
    have hwit := NTree.regionsOk_branch_find ops hpart r subs hro hc
    have hrol : NTree.regionsOkL ops subs := by
      simp only [NTree.regionsOk] at hro
      exact hro.2
    exact absurd hfind (ihf hpart hrol hwit)
  · intro p _ _ hwit
    simp at hwit
  · intro s rest p hc s' b hdesc _ _ _ _
    simp only [NTree.removeFind]
    rw [if_pos hc]
    simp [hdesc]
  · intro s rest p hc hdesc ihd hpart hrol _
    have hros : NTree.regionsOk ops s := by
      simp only [NTree.regionsOkL] at hrol
      exact hrol.1
    exact absurd hdesc (ihd hpart hros hc)
  · intro s rest p hc subs' b hfind _ _ _ _
    simp only [NTree.removeFind]
    rw [if_neg hc]
    simp [hfind]
  · intro s rest p hc hfind ihf hpart hrol hwit
    have hros : NTree.regionsOkL ops rest := by
      simp only [NTree.regionsOkL] at hrol
      exact hrol.2
    obtain ⟨s0, hs0, hcs0⟩ := hwit
    rcases List.mem_cons.1 hs0 with rfl | hs0'
    · rw [hcs0] at hc
      exact absurd rfl hc
    · exact absurd hfind (ihf hpart hros ⟨s0, hs0', hcs0⟩)

/-! ## Behaviour when no child contains the point -/

theorem NTree.nearbyFind_none (ops : RegionOps R P) (p : P) :
    ∀ l : List (NTree R P), (∀ s ∈ l, ops.contains s.region p = false) →
      NTree.nearbyFind ops l p = none := by
  intro l
  induction l with
  | nil => intro _; simp [NTree.nearbyFind]
  | cons s rest ih =>
    intro h
    rw [NTree.nearbyFind.eq_def]
    dsimp only
    rw [if_neg (by simp [h s (List.mem_cons_self s rest)])]
    exact ih fun x hx => h x (List.mem_cons_of_mem s hx)

theorem NTree.insertFind_panic (ops : RegionOps R P) (n : Nat) (p : P) :
    ∀ l : List (NTree R P), (∀ s ∈ l, ops.contains s.region p = false) →
      NTree.insertFind ops n l p = .panic := by
  intro l
  induction l with
  | nil => intro _; simp [NTree.insertFind]
  | cons s rest ih =>
    intro h
    simp only [NTree.insertFind]
    rw [if_neg (by simp [h s (List.mem_cons_self s rest)])]
    rw [ih fun x hx => h x (List.mem_cons_of_mem s hx)]

theorem NTree.removeFind_panic (ops : RegionOps R P) (peq : P → P → Bool)
    (p : P) :
    ∀ l : List (NTree R P), (∀ s ∈ l, ops.contains s.region p = false) →
      NTree.removeFind ops peq l p = .panic := by
  intro l
  induction l with
  | nil => intro _; simp [NTree.removeFind]
  | cons s rest ih =>
    intro h
    simp only [NTree.removeFind]
    rw [if_neg (by simp [h s (List.mem_cons_self s rest)])]
    rw [ih fun x hx => h x (List.mem_cons_of_mem s hx)]

/-! ## `nearby` finds a freshly inserted point -/

theorem NTree.nearby_some_contains (ops : RegionOps R P) (t : NTree R P)
    (p : P) (pts : List P) (h : NTree.nearby ops t p = some pts) :
    ops.contains t.region p = true := by
  by_contra hc
  rw [NTree.nearby.eq_def] at h
  dsimp only at h
  rw [if_neg hc] at h
  cases h

theorem NTree.insert_nearby (ops : RegionOps R P) :
    ∀ (n : Nat) (t : NTree R P) (p : P) (t' : NTree R P) (b : Bool),
      NTree.insert ops n t p = .ok t' b →
      ops.contains t.region p = true →
      ∃ pts, NTree.nearby ops t' p = some pts ∧ p ∈ pts := by
  have main : ∀ (n : Nat) (t : NTree R P) (p : P),
      (∀ t' b, NTree.insert ops n t p = .ok t' b →
        ops.contains t.region p = true →
        ∃ pts, NTree.nearby ops t' p = some pts ∧ p ∈ pts) := by
    refine NTree.insert.induct ops
      (fun n t p => ∀ t' b, NTree.insert ops n t p = .ok t' b →
        ops.contains t.region p = true →
        ∃ pts, NTree.nearby ops t' p = some pts ∧ p ∈ pts)
      (fun n t p => ∀ t' b, NTree.insertDescend ops n t p = .ok t' b →
        ops.contains t.region p = true →
        ∃ pts, NTree.nearby ops t' p = some pts ∧ p ∈ pts)
      (fun n l p => ∀ l' b, NTree.insertFind ops n l p = .ok l' b →
        ∃ pts, NTree.nearbyFind ops l' p = some pts ∧ p ∈ pts)
      (fun n r pts0 lim p => ∀ t' b,
        NTree.split_and_insert ops n r pts0 lim p = .ok t' b →
        ops.contains r p = true →
        ∃ pts, NTree.nearby ops t' p = some pts ∧ p ∈ pts)
      (fun _ _ _ => True)
      ?_ ?_ ?_ ?_ ?_ ?_ ?_ ?_ ?_ ?_ ?_ ?_ ?_ ?_ ?_ ?_ ?_ ?_ ?_ ?_ ?_ ?_ ?_ ?_
    · intro t p hc t' b h
      simp [NTree.insert, hc] at h
    · intro t p hc f ih t' b h _
      simp only [NTree.insert, hc, if_true] at h
      exact ih t' b h hc
    · intro n t p hc t' b h hcont
      exact absurd hcont hc
    · intro n r pts lim p hguard t' b h hcont
      simp only [NTree.insertDescend] at h
      rw [if_pos hguard] at h
      injection h with h1 h2
      subst h1
      simp only [NTree.region] at hcont
      refine ⟨pts ++ [p], ?_, by simp⟩
      rw [NTree.nearby.eq_def]
      dsimp only
      rw [if_pos (by simpa [NTree.region] using hcont)]
    · intro n r pts lim p hguard ih t' b h hcont
      simp only [NTree.insertDescend] at h
      rw [if_neg hguard] at h
      simp only [NTree.region] at hcont
      exact ih t' b h hcont
    · intro n r subs p subs' b hfind ihf t' b2 h hcont
      simp only [NTree.insertDescend, hfind] at h
      injection h with h1 h2
      subst h1
      simp only [NTree.region] at hcont
      obtain ⟨pts, hn, hp⟩ := ihf subs' b hfind
      refine ⟨pts, ?_, hp⟩
      rw [NTree.nearby.eq_def]
      dsimp only
      rw [if_pos (by simpa [NTree.region] using hcont)]
      exact hn
    · intro n r subs p hfind _ t' b h _
      simp [NTree.insertDescend, hfind] at h
    · intro n r subs p hfind _ t' b h _
      simp [NTree.insertDescend, hfind] at h
    · intro n p l' b h
      simp [NTree.insertFind] at h
    · intro n s rest p hc s' b hdesc ihd l' b2 h
      simp only [NTree.insertFind] at h
      rw [if_pos hc] at h
      simp only [hdesc] at h
      injection h with h1 h2
      subst h1
      obtain ⟨pts, hn, hp⟩ := ihd s' b hdesc hc
      refine ⟨pts, ?_, hp⟩
      rw [NTree.nearbyFind.eq_def]
      dsimp only
      rw [if_pos (NTree.nearby_some_contains ops s' p pts hn)]
      exact hn
    · intro n s rest p hc hdesc _ l' b h
      simp only [NTree.insertFind] at h
      rw [if_pos hc] at h
      simp [hdesc] at h
    · intro n s rest p hc hdesc _ l' b h
      simp only [NTree.insertFind] at h
      rw [if_pos hc] at h
      simp [hdesc] at h
    · intro n s rest p hc subs' b hfind ihf l' b2 h
      simp only [NTree.insertFind] at h
      rw [if_neg hc] at h
      simp only [hfind] at h
      injection h with h1 h2
      subst h1
      obtain ⟨pts, hn, hp⟩ := ihf subs' b hfind
      refine ⟨pts, ?_, hp⟩
      rw [NTree.nearbyFind.eq_def]
      dsimp only
      rw [if_neg hc]
      exact hn
    · intro n s rest p hc hfind _ l' b h
      simp only [NTree.insertFind] at h
      rw [if_neg hc] at h
      simp [hfind] at h
    · intro n s rest p hc hfind _ l' b h
      simp only [NTree.insertFind] at h
      rw [if_neg hc] at h
      simp [hfind] at h
    · intro n r pts lim p s' b hOld s'' b2 hIns _ ih1 t' b3 h hcont
      simp only [NTree.split_and_insert, hOld, hIns] at h
      injection h with h1 h2
      subst h1
      have hreg : s'.region = r :=
        (NTree.insertOld_props ops pts n (NTree.new ops r lim) s' b hOld).1
      exact ih1 s'' b2 hIns (by rw [hreg]; exact hcont)
    · intro n r pts lim p s' b hOld hIns _ _ t' b3 h _
      simp [NTree.split_and_insert, hOld, hIns] at h
    · intro n r pts lim p s' b hOld hIns _ _ t' b3 h _
      simp [NTree.split_and_insert, hOld, hIns] at h
    · intro n r pts lim p hOld _ t' b3 h _
      simp [NTree.split_and_insert, hOld] at h
    · intro n r pts lim p hOld _ t' b3 h _
      simp [NTree.split_and_insert, hOld] at h
    · intro x t
      trivial
    · intro n t x xs s' b hIns _ _
      trivial
    · intro n t x xs hIns _
      trivial
    · intro n t x xs hIns _
      trivial
  intro n t p t' b h hc
  exact main n t p t' b h hc

/-! ## A pathological region on which insertion diverges -/

/-- A degenerate region type: the single region contains every point and
splits into exactly one copy of itself, so all points of an overflowing
bucket land in the same sub-region again. -/
def opsU : RegionOps Unit Unit :=
  ⟨fun _ _ => true, fun _ => [()], fun _ _ => true⟩

theorem opsU_contains (a b : Unit) : opsU.contains a b = true := rfl

theorem opsU_new : NTree.new opsU () 1 = .branch () [.bucket () [] 1] := rfl

/-- The tree reached after one successful insertion into
`new opsU () 1`: a branch over a single bucket that is full (limit 1). -/
def tU : NTree Unit Unit := .branch () [.bucket () [()] 1]

theorem opsU_insert_fresh (f : Nat) :
    NTree.insert opsU (f + 1) (NTree.branch () [NTree.bucket () [] 1]) () =
      .ok (NTree.branch () [NTree.bucket () [()] 1]) true := by
  simp [NTree.insert, NTree.insertDescend, NTree.insertFind, NTree.region,
    opsU_contains]

theorem opsU_insert_fuelOut_aux :
    ∀ n, NTree.insert opsU n (NTree.branch () [NTree.bucket () [()] 1]) () =
      .fuelOut := by
  intro n
  induction n using Nat.strong_induction_on with
  | _ n ih =>
    match n with
    | 0 => simp [NTree.insert, NTree.region, opsU_contains]
    | Nat.succ m =>
      have hmain : NTree.insertDescend opsU m
          (NTree.branch () [NTree.bucket () [()] 1]) () = .fuelOut := by
        cases m with
        | zero =>
          simp [NTree.insertDescend, NTree.insertFind, NTree.region,
            opsU_contains, NTree.split_and_insert, NTree.insertOld,
            NTree.insert, opsU_new]
        | succ k =>
          have h1 := opsU_insert_fresh k
          have h2 := ih (k + 1) (by omega)
          simp [NTree.insertDescend, NTree.insertFind, NTree.region,
            opsU_contains, NTree.split_and_insert, NTree.insertOld, opsU_new,
            h1, h2]
      simp [NTree.insert, NTree.region, opsU_contains, hmain]

/-- Inserting a duplicate point into the degenerate tree never terminates:
every amount of fuel is exhausted. -/
theorem opsU_insert_fuelOut : ∀ n, NTree.insert opsU n tU () = .fuelOut :=
  opsU_insert_fuelOut_aux

/-! ## Bucket-level behaviour of the descent -/

theorem NTree.insertDescend_bucket_append (ops : RegionOps R P) (n : Nat)
    (r : R) (pts : List P) (lim : Nat) (p : P) (hlt : pts.length < lim)
    (hlim : lim < 256) :
    NTree.insertDescend ops n (.bucket r pts lim) p =
      .ok (.bucket r (pts ++ [p]) lim) true := by
  simp only [NTree.insertDescend]
  rw [if_pos]
  have : pts.length % 256 = pts.length := Nat.mod_eq_of_lt (by omega)
  simp [this]
  omega

theorem NTree.insertDescend_bucket_split (ops : RegionOps R P) (n : Nat)
    (r : R) (pts : List P) (lim : Nat) (p : P) (heq : pts.length = lim)
    (hlim : lim < 256) :
    NTree.insertDescend ops n (.bucket r pts lim) p =
      NTree.split_and_insert ops n r pts lim p := by
  simp only [NTree.insertDescend]
  rw [if_neg]
  have : pts.length % 256 = pts.length := Nat.mod_eq_of_lt (by omega)
  simp [this, heq]
  omega

/-! ## A concrete half-open-interval region over natural numbers -/

/-- Half-open intervals `[lo, hi)` over `Nat`, split at the midpoint.  Used
to instantiate the general theorems on concrete inputs. -/
def opsI : RegionOps (Nat × Nat) Nat where
  contains := fun r p => decide (r.1 ≤ p ∧ p < r.2)
  split := fun r => [(r.1, (r.1 + r.2) / 2), ((r.1 + r.2) / 2, r.2)]
  overlaps := fun r q => decide (r.1 < q.2 ∧ q.1 < r.2)

theorem opsI_part : PartitionContract opsI := by
  intro r p hc
  simp only [opsI, decide_eq_true_eq] at hc
  by_cases hp : p < (r.1 + r.2) / 2
  · refine ⟨(r.1, (r.1 + r.2) / 2), by simp [opsI], ?_⟩
    simp only [opsI, decide_eq_true_eq]
    omega
  · refine ⟨((r.1 + r.2) / 2, r.2), by simp [opsI], ?_⟩
    simp only [opsI, decide_eq_true_eq]
    omega

theorem opsI_over : OverlapsContract opsI := by
  intro r q p h1 h2
  simp only [opsI, decide_eq_true_eq] at h1 h2 ⊢
  omega

/-- `[0,4)` with capacity 2, after inserting the point `0` once. -/
def tI1 : NTree (Nat × Nat) Nat :=
  .branch (0, 4) [.bucket (0, 2) [0] 2, .bucket (2, 4) [] 2]

/-- `tI1` after inserting the point `0` a second time. -/
def tI2 : NTree (Nat × Nat) Nat :=
  .branch (0, 4) [.bucket (0, 2) [0, 0] 2, .bucket (2, 4) [] 2]

theorem tI1_insert : NTree.insert opsI 5 tI1 0 = .ok tI2 true := by
  simp [NTree.insert, NTree.insertDescend, NTree.insertFind, NTree.region,
    opsI, tI1, tI2]

/-- `tI2` after removing the point `0` (swap-remove drops one copy). -/
def tI3 : NTree (Nat × Nat) Nat :=
  .branch (0, 4) [.bucket (0, 2) [0] 2, .bucket (2, 4) [] 2]

theorem tI2_remove :
    NTree.remove opsI (fun a b => a == b) tI2 0 = .ok tI3 true := by
  simp [NTree.remove, NTree.removeDescend, NTree.removeFind, NTree.region,
    opsI, tI2, tI3, List.findIdx?, swapRemove]

theorem NTree.regionsOk_arityOk (ops : RegionOps R P) :
    ∀ t : NTree R P, NTree.regionsOk ops t → NTree.arityOk ops t := by
  refine NTree.arityOk.induct ops
    (fun t => NTree.regionsOk ops t → NTree.arityOk ops t)
    (fun l => NTree.regionsOkL ops l → NTree.arityOkL ops l) ?_ ?_ ?_ ?_
  · intro r pts lim _
    simp [NTree.arityOk]
  · intro r subs ih hro
    simp only [NTree.regionsOk] at hro
    simp only [NTree.arityOk]
    refine ⟨?_, ih hro.2⟩
    have := congrArg List.length hro.1
    simpa using this
  · intro _
    simp [NTree.arityOkL]
  · intro t ts ih1 ih2 hro
    simp only [NTree.regionsOkL] at hro
    simp only [NTree.arityOkL]
    exact ⟨ih1 hro.1, ih2 hro.2⟩

/-! ## The claims -/

/-- C1: for every finite sequence of successfully inserted points (starting
from `new`) and every query region, the cursor returned by `range_query`
yields exactly the stored points satisfying `query.contains`, each exactly
once, in depth-first left-to-right order, regardless of insertion order,
assuming the Region partition and overlaps contracts. -/
theorem claim_C1_range_query_exact (ops : RegionOps R P)
    (hpart : PartitionContract ops) (hov : OverlapsContract ops)
    (r0 : R) (cap : Nat) (ps : List (P × Nat)) (query : R) :
    RangeQuery.run ops query
        (NTree.range_query (insertSeq ops (NTree.new ops r0 cap) ps)) =
      (NTree.allPoints (insertSeq ops (NTree.new ops r0 cap) ps)).filter
        (fun p => ops.contains query p) := by
  obtain ⟨hw, _⟩ := insertSeq_inv ops hpart ps (NTree.new ops r0 cap)
    (NTree.new_wf ops r0 cap) (NTree.new_regionsOk ops r0 cap)
  exact range_query_run ops query hov _ hw

theorem claim_C1_witness :
    RangeQuery.run opsI (0, 2)
        (NTree.range_query (insertSeq opsI (NTree.new opsI (0, 4) 2)
          [(0, 5), (1, 5), (2, 5)])) =
      (NTree.allPoints (insertSeq opsI (NTree.new opsI (0, 4) 2)
          [(0, 5), (1, 5), (2, 5)])).filter
        (fun p => opsI.contains (0, 2) p) :=
  claim_C1_range_query_exact opsI opsI_part opsI_over (0, 4) 2
    [(0, 5), (1, 5), (2, 5)] (0, 2)

/-- C2: `new` establishes the capacity bound, `insert` and `remove` preserve
it (so every reachable bucket holds at most `bucket_limit` points), and the
descent appends to a bucket exactly when its occupancy is strictly below
capacity and otherwise splits. -/
theorem claim_C2_capacity_bound (ops : RegionOps R P) :
    (∀ (r : R) (s : Nat), s < 256 → NTree.capOk (NTree.new ops r s)) ∧
    (∀ (n : Nat) (t t' : NTree R P) (p : P) (b : Bool),
      NTree.insert ops n t p = .ok t' b → NTree.capOk t → NTree.capOk t') ∧
    (∀ (peq : P → P → Bool) (t t' : NTree R P) (p : P) (b : Bool),
      NTree.remove ops peq t p = .ok t' b → NTree.capOk t → NTree.capOk t') ∧
    (∀ (n : Nat) (r : R) (pts : List P) (lim : Nat) (p : P),
      pts.length < lim → lim < 256 →
      NTree.insertDescend ops n (.bucket r pts lim) p =
        .ok (.bucket r (pts ++ [p]) lim) true) ∧
    (∀ (n : Nat) (r : R) (pts : List P) (lim : Nat) (p : P),
      pts.length = lim → lim < 256 →
      NTree.insertDescend ops n (.bucket r pts lim) p =
        NTree.split_and_insert ops n r pts lim p) := by
  refine ⟨NTree.new_capOk ops, ?_, ?_, NTree.insertDescend_bucket_append ops,
    NTree.insertDescend_bucket_split ops⟩
  · intro n t t' p b h hc
    exact NTree.insert_capOk ops n t t' p b h hc
  · intro peq t t' p b h hc
    exact (NTree.remove_props ops peq t p t' b h).2.1 hc

theorem claim_C2_witness : NTree.capOk (NTree.new opsI (0, 4) 2) :=
  (claim_C2_capacity_bound opsI).1 (0, 4) 2 (by decide)

/-- C3: when the root's region does not contain the point, `insert` returns
`false`, `remove` returns `false` and `nearby` returns `none`, and the tree
is completely unchanged in each case. -/
theorem claim_C3_outside_region (ops : RegionOps R P) (peq : P → P → Bool)
    (n : Nat) (t : NTree R P) (p : P)
    (hc : ops.contains t.region p = false) :
    NTree.insert ops n t p = .ok t false ∧
    NTree.remove ops peq t p = .ok t false ∧
    NTree.nearby ops t p = none := by
  refine ⟨?_, ?_, ?_⟩
  · rw [NTree.insert.eq_def]
    dsimp only
    rw [if_neg (by simp [hc])]
  · rw [NTree.remove.eq_def]
    dsimp only
    rw [if_neg (by simp [hc])]
  · rw [NTree.nearby.eq_def]
    dsimp only
    rw [if_neg (by simp [hc])]

theorem claim_C3_witness :
    NTree.insert opsI 5 tI1 7 = .ok tI1 false ∧
    NTree.remove opsI (fun a b => a == b) tI1 7 = .ok tI1 false ∧
    NTree.nearby opsI tI1 7 = none :=
  claim_C3_outside_region opsI (fun a b => a == b) 5 tI1 7 (by decide)

/-- C4: for a point contained in the root's region, a completed `remove`
either returns `false` leaving the tree unchanged, or returns `true` having
removed exactly one stored occurrence equal (under `peq`) to the point,
preserving all other stored points as a multiset. -/
theorem claim_C4_remove_behavior (ops : RegionOps R P) (peq : P → P → Bool)
    (t t' : NTree R P) (p : P) (b : Bool)
    (hc : ops.contains t.region p = true)
    (h : NTree.remove ops peq t p = .ok t' b) :
    (b = false → t' = t) ∧
    (b = true → ∃ x, peq x p = true ∧
      (NTree.allPoints t : Multiset P) =
        x ::ₘ (NTree.allPoints t' : Multiset P)) := by
  have hp := NTree.remove_props ops peq t p t' b h
  exact ⟨hp.2.2.1, fun hb => (hp.2.2.2 hb).1⟩

theorem claim_C4_witness :
    (true = false → tI3 = tI2) ∧
    (true = true → ∃ x, (x == 0) = true ∧
      (NTree.allPoints tI2 : Multiset Nat) =
        x ::ₘ (NTree.allPoints tI3 : Multiset Nat)) :=
  claim_C4_remove_behavior opsI (fun a b => a == b) tI2 tI3 0 true (by decide)
    tI2_remove

/-- C5: removal never changes the shape of the tree (no node created,
destroyed or replaced; an emptied bucket persists), and when a point is
removed every bucket other than the one that held it is unchanged. -/
theorem claim_C5_remove_shape (ops : RegionOps R P) (peq : P → P → Bool)
    (t t' : NTree R P) (p : P) (b : Bool)
    (h : NTree.remove ops peq t p = .ok t' b) :
    NTree.shapeOf t' = NTree.shapeOf t ∧
    (b = false → t' = t) ∧
    (b = true → ∃ pre ls ls' post,
      NTree.bucketLists t = pre ++ ls :: post ∧
      NTree.bucketLists t' = pre ++ ls' :: post) := by
  have hp := NTree.remove_props ops peq t p t' b h
  exact ⟨hp.1, hp.2.2.1, fun hb => (hp.2.2.2 hb).2⟩

theorem claim_C5_witness :
    NTree.shapeOf tI3 = NTree.shapeOf tI2 ∧
    (true = false → tI3 = tI2) ∧
    (true = true → ∃ pre ls ls' post,
      NTree.bucketLists tI2 = pre ++ ls :: post ∧
      NTree.bucketLists tI3 = pre ++ ls' :: post) :=
  claim_C5_remove_shape opsI (fun a b => a == b) tI2 tI3 0 true tI2_remove

/-- C6 as stated is false: when a point equal to `p` is already stored,
a full-region range query after a successful duplicate insert yields `p`
twice, not exactly once. -/
theorem claim_C6_counterexample :
    opsI.contains tI1.region 0 = true ∧
    NTree.insert opsI 5 tI1 0 = .ok tI2 true ∧
    (RangeQuery.run opsI tI2.region (NTree.range_query tI2)).count 0 ≠ 1 := by
  refine ⟨by decide, tI1_insert, ?_⟩
  have hstep : ∀ (q : Nat × Nat) (s : RangeQuery (Nat × Nat) Nat),
      RangeQuery.run opsI q s =
        (match RangeQuery.next opsI q s with
          | none => []
          | some (p, s') => p :: RangeQuery.run opsI q s') := by
    intro q s
    rw [RangeQuery.run.eq_def]
    rcases h : RangeQuery.next opsI q s with - | ⟨p, s'⟩ <;> simp [h]
  have h1 : RangeQuery.next opsI tI2.region (NTree.range_query tI2) =
      some (0, ⟨[0], [[.bucket (2, 4) [] 2], []]⟩) := by
    simp [RangeQuery.next, NTree.range_query, opsI, tI2, NTree.region]
  have h2 : RangeQuery.next opsI tI2.region
      ⟨[0], [[NTree.bucket (2, 4) [] 2], []]⟩ =
      some (0, ⟨[], [[.bucket (2, 4) [] 2], []]⟩) := by
    simp [RangeQuery.next, opsI, tI2, NTree.region]
  have h3 : RangeQuery.next opsI tI2.region
      ⟨[], [[NTree.bucket (2, 4) [] 2], []]⟩ = none := by
    simp [RangeQuery.next, opsI, tI2, NTree.region]
  rw [hstep, h1]
  dsimp only
  rw [hstep, h2]
  dsimp only
  rw [hstep, h3]
  decide

/-- C6 amended: for a point `p` contained in the root region of a well-formed
tree (under the Region contracts), after `insert(p)` returns true, `nearby(p)`
returns a slice that includes `p`, and a range query over the full covering
region yields `p` exactly one more time than the number of stored copies of
`p` before the insertion — in particular at least once, and exactly once when
no equal point was stored before. -/
theorem claim_C6_amended (ops : RegionOps R P) [DecidableEq P]
    (hpart : PartitionContract ops) (hov : OverlapsContract ops)
    (n : Nat) (t t' : NTree R P) (p : P) (b : Bool)
    (hw : NTree.wfB ops t = true) (hro : NTree.regionsOk ops t)
    (hc : ops.contains t.region p = true)
    (h : NTree.insert ops n t p = .ok t' b) :
    b = true ∧
    (∃ pts, NTree.nearby ops t' p = some pts ∧ p ∈ pts) ∧
    (RangeQuery.run ops t.region (NTree.range_query t')).count p =
      (NTree.allPoints t).count p + 1 := by
  obtain ⟨hb, hm⟩ :=
    NTree.insert_contained_multiset ops n t t' p b h hpart hw hro hc
  have hnear := NTree.insert_nearby ops n t p t' b h hc
  have hw' := NTree.insert_wfB ops n t t' p b h hpart hw hro
  have hrun := range_query_run ops t.region hov t' hw'
  refine ⟨hb, hnear, ?_⟩
  rw [hrun]
  rw [List.count_filter (by simpa using hc)]
  have h1 : ((NTree.allPoints t' : Multiset P)).count p =
      ((NTree.allPoints t : Multiset P)).count p + 1 := by
    rw [hm, Multiset.count_cons_self]
  simpa [Multiset.coe_count] using h1

theorem claim_C6_amended_witness :
    true = true ∧
    (∃ pts, NTree.nearby opsI tI2 0 = some pts ∧ 0 ∈ pts) ∧
    (RangeQuery.run opsI tI1.region (NTree.range_query tI2)).count 0 =
      (NTree.allPoints tI1).count 0 + 1 :=
  claim_C6_amended opsI opsI_part opsI_over 5 tI1 tI2 0 true
    (by simp [NTree.wfB, NTree.wfL, NTree.allPointsL, NTree.allPoints, tI1,
      opsI, NTree.region])
    (by simp [NTree.regionsOk, NTree.regionsOkL, tI1, opsI, NTree.region])
    (by decide) tI1_insert

/-- C7: `new(region, capacity)` returns a branch carrying exactly the given
region whose children are empty buckets over `region.split()` in order with
the given capacity; every branch of a tree satisfying the structure invariant
(established by `new`, preserved by `insert`) has arity equal to the
cardinality of `split()` of its region. -/
theorem claim_C7_new_structure (ops : RegionOps R P) :
    (∀ (r : R) (s : Nat), NTree.new ops r s =
      .branch r ((ops.split r).map (fun r' => .bucket r' [] s))) ∧
    (∀ (r : R) (s : Nat), NTree.regionsOk ops (NTree.new ops r s)) ∧
    (∀ (n : Nat) (t t' : NTree R P) (p : P) (b : Bool),
      NTree.insert ops n t p = .ok t' b →
      NTree.regionsOk ops t → NTree.regionsOk ops t') ∧
    (∀ t : NTree R P, NTree.regionsOk ops t → NTree.arityOk ops t) := by
  refine ⟨fun r s => rfl, NTree.new_regionsOk ops, ?_,
    NTree.regionsOk_arityOk ops⟩
  intro n t t' p b h hro
  exact NTree.insert_regionsOk ops n t t' p b h hro

theorem claim_C7_witness :
    NTree.arityOk opsI (NTree.new opsI (0, 4) 2) :=
  (claim_C7_new_structure opsI).2.2.2 _
    ((claim_C7_new_structure opsI).2.1 (0, 4) 2)

/-- C8: under the Region partition invariant, for a point contained in the
root region of a structurally sound tree, the descent of `insert` and
`remove` always finds a containing child, so their `unwrap` / `unreachable`
failure branches are never reached. -/
theorem claim_C8_no_unreachable (ops : RegionOps R P) (peq : P → P → Bool)
    (t : NTree R P) (p : P) (hpart : PartitionContract ops)
    (hro : NTree.regionsOk ops t)
    (hc : ops.contains t.region p = true) :
    (∀ n, NTree.insert ops n t p ≠ .panic) ∧
    NTree.remove ops peq t p ≠ .panic := by
  constructor
  · intro n
    exact NTree.insert_no_panic ops n t p hpart hro
  · rw [NTree.remove.eq_def]
    dsimp only
    rw [if_pos (by simpa using hc)]
    exact NTree.removeDescend_no_panic ops peq t p hpart hro hc

theorem claim_C8_witness :
    (∀ n, NTree.insert opsI n tI1 0 ≠ .panic) ∧
    NTree.remove opsI (fun a b => a == b) tI1 0 ≠ .panic :=
  claim_C8_no_unreachable opsI (fun a b => a == b) tI1 0 opsI_part
    (by simp [NTree.regionsOk, NTree.regionsOkL, tI1, opsI, NTree.region])
    (by decide)

/-- C9: for the degenerate region implementation `opsU` (one all-containing
region splitting into itself) and duplicate insertions, the split-and-insert
step re-overflows the freshly split branch forever: after one successful
insertion into `new`, the next `insert` exhausts every amount of fuel, i.e.
it does not terminate. -/
theorem claim_C9_insert_divergence :
    NTree.insert opsU 1 (NTree.new opsU () 1) () = .ok tU true ∧
    ∀ n, NTree.insert opsU n tU () = .fuelOut :=
  ⟨opsU_insert_fresh 0, opsU_insert_fuelOut⟩

/-- C10: at a branch whose region contains the point but none of whose
children's regions contain it (a partition-invariant violation), `nearby`
returns `None` while `insert` and `remove` hit their `unwrap` /
`unreachable` panics in the identical situation; `nearby` is total and
panic-free by construction. -/
theorem claim_C10_nearby_total (ops : RegionOps R P) (peq : P → P → Bool)
    (r : R) (subs : List (NTree R P)) (p : P)
    (hc : ops.contains r p = true)
    (hnone : ∀ s ∈ subs, ops.contains s.region p = false) :
    NTree.nearby ops (.branch r subs) p = none ∧
    (∀ n, NTree.insert ops (n + 1) (.branch r subs) p = .panic) ∧
    NTree.remove ops peq (.branch r subs) p = .panic := by
  have hcr : ops.contains (NTree.region (.branch r subs)) p = true := by
    simpa [NTree.region] using hc
  refine ⟨?_, ?_, ?_⟩
  · rw [NTree.nearby.eq_def]
    dsimp only
    rw [if_pos hcr]
    exact NTree.nearbyFind_none ops p subs hnone
  · intro n
    simp only [NTree.insert, hcr, if_true]
    simp only [NTree.insertDescend,
      NTree.insertFind_panic ops n p subs hnone]
  · rw [NTree.remove.eq_def]
    dsimp only
    rw [if_pos hcr]
    simp only [NTree.removeDescend,
      NTree.removeFind_panic ops peq p subs hnone]

/-- A region implementation violating the partition invariant: region `0`
contains every point but splits into the single region `1`, which contains
nothing. -/
def opsV : RegionOps Nat Nat :=
  ⟨fun r _ => decide (r = 0), fun _ => [1], fun _ _ => true⟩

theorem claim_C10_witness :
    NTree.nearby opsV (.branch 0 [.bucket 1 [] 4]) 0 = none ∧
    (∀ n, NTree.insert opsV (n + 1) (.branch 0 [.bucket 1 [] 4]) 0 =
      .panic) ∧
    NTree.remove opsV (fun a b => a == b) (.branch 0 [.bucket 1 [] 4]) 0 =
      .panic :=
  claim_C10_nearby_total opsV (fun a b => a == b) 0 [.bucket 1 [] 4] 0
    (by decide) (by decide)
